import Mathlib

/-!
Verification of the k-engine content migration and translation-resolution
layer.

The development shallowly embeds the two JavaScript sources:

* `migrate-projects.js` (and its near-identical twin `migrate-posts.js`):
  layout detection, content collection, staged migration with a destructive
  promotion phase.
* the render module (`getPostTranslations`, `getProjectTranslations`,
  `generateLanguageSwitcher`).

The filesystem is modelled as a finite tree of named entries.  Every
`fs.*Sync` primitive used by the sources is given a semantics
(`Option`-valued: `none` models a thrown filesystem error).  FsPath components
are atoms (`path.join(a, b)` is list append; directory entry names returned
by `readdirSync` never contain separators).  Mutating helpers of the
sources (`mkdirSync`/`moveSync`/`copyFileSync`/`removeSync`, which wrap the
node primitives with existence checks) are modelled exactly.

External collaborators that are not part of this repository are abstracted
by parameters: the front-matter parser (`front-matter` npm package) is a
function `parse : String → Option String` giving the (truthy) `slug`
attribute of a document if it declares one, and the configured language
list `config.languages` is a parameter `languages : List String`.
-/

/-- A path is the list of its components. -/
abbrev FsPath := List String

/-- Filesystem tree: a node is a file with bytes (modelled as a `String`)
or a directory with a list of named entries (in enumeration order, as
returned by `readdirSync`). -/
inductive FS where
  | file (content : String)
  | dir (entries : List (String × FS))

namespace FS

/-- First entry with the given name (on a real filesystem names are unique,
so this is the entry with that name). -/
def childGet : List (String × FS) → String → Option FS
  | [], _ => none
  | (k, v) :: rest, n => if k = n then some v else childGet rest n

/-- Replace the first entry with the given name, keeping its position, or
append a new entry (matches directory update semantics). -/
def childSet : List (String × FS) → String → FS → List (String × FS)
  | [], n, v => [(n, v)]
  | (k, w) :: rest, n, v => if k = n then (n, v) :: rest else (k, w) :: childSet rest n v

/-- Remove the first entry with the given name. -/
def childErase : List (String × FS) → String → List (String × FS)
  | [], _ => []
  | (k, w) :: rest, n => if k = n then rest else (k, w) :: childErase rest n

/-- Resolve a path to the subtree it denotes, if any. -/
def lookup : FS → FsPath → Option FS
  | t, [] => some t
  | .file _, _ :: _ => none
  | .dir es, n :: rest =>
    match childGet es n with
    | none => none
    | some t => t.lookup rest

/-- `fs.existsSync`. -/
def exists_ (t : FS) (p : FsPath) : Bool := (t.lookup p).isSome

/-- `fs.mkdirSync(p, { recursive: true })`: create every missing component
as a directory; fails if a file is in the way (`ENOTDIR`/`EEXIST`). -/
def mkdirp : FS → FsPath → Option FS
  | .dir es, [] => some (.dir es)
  | .file _, [] => none
  | .file _, _ :: _ => none
  | .dir es, n :: rest =>
    let child := match childGet es n with
      | some t => t
      | none => .dir []
    (mkdirp child rest).map fun t' => .dir (childSet es n t')

/-- The source's `mkdirSync` helper: skip when the path already exists
(whatever it is), otherwise create recursively. -/
def applyMkdir (t : FS) (p : FsPath) : Option FS :=
  if (t.lookup p).isSome then some t else t.mkdirp p

/-- `fs.writeFileSync`: the parent directory must exist; creates or
overwrites a file; fails on a directory target (`EISDIR`) or a missing
parent (`ENOENT`). -/
def writeFile : FS → FsPath → String → Option FS
  | .dir es, [n], c =>
    (match childGet es n with
      | some (.dir _) => none
      | _ => some (.dir (childSet es n (.file c))))
  | .dir es, n :: m :: rest, c =>
    (match childGet es n with
      | some t => (writeFile t (m :: rest) c).map fun t' => FS.dir (childSet es n t')
      | none => none)
  | _, _, _ => none

/-- `fs.rmSync(p, { recursive: true, force: true })` on an existing path:
detach the subtree. -/
def removePath : FS → FsPath → Option FS
  | _, [] => none
  | .file _, _ :: _ => none
  | .dir es, [n] => some (.dir (childErase es n))
  | .dir es, n :: m :: rest =>
    (match childGet es n with
      | some t => (removePath t (m :: rest)).map fun t' => FS.dir (childSet es n t')
      | none => some (.dir es))

/-- The source's `removeSync` helper: `rmSync` guarded by `existsSync`. -/
def applyRemove (t : FS) (p : FsPath) : Option FS :=
  if (t.lookup p).isSome then t.removePath p else some t

/-- Place a subtree at a path whose parent directory already exists
(replacing any entry of that name). -/
def insertTree : FS → FsPath → FS → Option FS
  | .dir es, [n], sub => some (.dir (childSet es n sub))
  | .dir es, n :: m :: rest, sub =>
    (match childGet es n with
      | some t => (insertTree t (m :: rest) sub).map fun t' => FS.dir (childSet es n t')
      | none => none)
  | _, _, _ => none

/-- `fs.renameSync`: moves the subtree at `src` to `dest`.  Fails when
`src` is missing, when `dest` lies inside `src` (`EINVAL`), or when `dest`
exists and cannot be replaced (a non-empty directory, or a kind mismatch);
an existing empty-directory or file target of matching kind is replaced,
as POSIX `rename` does. -/
def renamePath (t : FS) (src dest : FsPath) : Option FS :=
  match t.lookup src with
  | none => none
  | some sub =>
    if src <+: dest then none
    else
      match t.lookup dest with
      | none => do
        let t1 ← t.removePath src
        t1.insertTree dest sub
      | some (.dir []) =>
        (match sub with
          | .dir _ => do
            let t1 ← t.removePath src
            t1.insertTree dest sub
          | .file _ => none)
      | some (.file _) =>
        (match sub with
          | .file _ => do
            let t1 ← t.removePath src
            t1.insertTree dest sub
          | .dir _ => none)
      | some (.dir (_ :: _)) => none

/-- `fs.copyFileSync`: the source must be a file; the destination is
created or overwritten. -/
def copyFile (t : FS) (src dest : FsPath) : Option FS :=
  match t.lookup src with
  | some (.file c) => t.writeFile dest c
  | _ => none

/-- Bytes of the file at a path, if the path denotes a file. -/
def contentAt (t : FS) (p : FsPath) : Option String :=
  match t.lookup p with
  | some (.file c) => some c
  | _ => none

end FS

/-- The `readdirSync(p, { withFileTypes: true })` names that pass an
`isDirectory()` filter; fails if `p` is not a directory. -/
def readdirDirs (t : FS) (p : FsPath) : Option (List String) :=
  match t.lookup p with
  | some (.dir es) =>
    some (es.filterMap fun e =>
      match e.2 with
      | .dir _ => some e.1
      | .file _ => none)
  | _ => none

/-- Plain `readdirSync(p)`: all entry names; fails if `p` is not a
directory. -/
def readdirNames (t : FS) (p : FsPath) : Option (List String) :=
  match t.lookup p with
  | some (.dir es) => some (es.map Prod.fst)
  | _ => none

/-- A single mutating filesystem operation, as performed by the migration
script's helpers. -/
inductive FsOp where
  | mkdir (p : FsPath)
  | write (p : FsPath) (content : String)
  | copy (src dest : FsPath)
  | rename (src dest : FsPath)
  | remove (p : FsPath)
deriving DecidableEq

/-- Apply one operation. -/
def applyOp (t : FS) : FsOp → Option FS
  | .mkdir p => t.applyMkdir p
  | .write p c => t.writeFile p c
  | .copy s d => t.copyFile s d
  | .rename s d => t.renamePath s d
  | .remove p => t.applyRemove p

/-- Apply a list of operations in order; the first failure aborts. -/
def applyOps (ops : List FsOp) (t : FS) : Option FS :=
  ops.foldlM applyOp t

/-- The paths an operation writes to (its mutation targets; `copy` reads
`src` but only mutates `dest`). -/
def FsOp.touches : FsOp → List FsPath
  | .mkdir p => [p]
  | .write p _ => [p]
  | .copy _ d => [d]
  | .rename s d => [s, d]
  | .remove p => [p]

/-!
## The migration script (`migrate-projects.js` / `migrate-posts.js`)

The two scripts are identical except for the content subdirectory
(`projects` vs `posts`); they are embedded once, parameterized by the
content root (`projectsDir`/`postsDir` below give the scripts' default
roots, `./content/{projects,posts}`).
-/

/-- The collected data of one language version of an item
(`{ content, files, sourcePath }` in `collectProjects`). -/
structure LangData where
  content : String
  files : List String
  sourcePath : FsPath
deriving DecidableEq

/-- `lang -> { content, files, sourcePath }`, in `Map` insertion order. -/
abbrev LangVersions := List (String × LangData)

/-- `slug -> (lang -> data)`, in `Map` insertion order. -/
abbrev Items := List (String × LangVersions)

/-- Default content root of `migrate-projects.js`
(`path.join('./content', 'projects')`). -/
def projectsDir : FsPath := ["content", "projects"]

/-- Default content root of `migrate-posts.js`
(`path.join('./content', 'posts')`). -/
def postsDir : FsPath := ["content", "posts"]

/-- The staging area `path.join(root, '_new_structure')`. -/
def tempPath (root : FsPath) : FsPath := root ++ ["_new_structure"]

/-- The backup area `path.join(root, '_old_structure_backup')`. -/
def backupPath (root : FsPath) : FsPath := root ++ ["_old_structure_backup"]

/-- Association-list update: overwrite the value at a present key in place
(keeping its position) or append a new binding — exactly the JavaScript
`Map.set` / object-property-assignment semantics. -/
def updOrAppend {β : Type} : List (String × β) → String → β → List (String × β)
  | [], k, v => [(k, v)]
  | (k', v') :: rest, k, v =>
    if k' = k then (k, v) :: rest else (k', v') :: updOrAppend rest k v

/-- Association-list lookup (`Map.get` / object property read). -/
def listGet {β : Type} (l : List (String × β)) (k : String) : Option β :=
  (l.find? fun p => p.1 = k).map Prod.snd

/-- Does a language directory qualify in `detectLanguages`: some immediate
subdirectory contains an `index.md` entry. -/
def hasIndexSubdir (es : List (String × FS)) : Bool :=
  es.any fun e =>
    match e.2 with
    | .dir sub => (FS.childGet sub "index.md").isSome
    | .file _ => false

/-- `detectLanguages`: fails (the script exits with an error) when the
content root is absent (or unreadable as a directory); otherwise returns
the names of subdirectories that contain at least one subdirectory with an
`index.md`. -/
def detectLanguages (root : FsPath) (fs : FS) : Option (List String) :=
  match fs.lookup root with
  | some (.dir es) =>
    some ((es.filter fun e =>
      match e.2 with
      | .dir sub => hasIndexSubdir sub
      | .file _ => false).map Prod.fst)
  | _ => none

/-- The `projects.get(slug).set(lang, data)` step of `collectProjects`
(creating the slug entry first when absent). -/
def itemsInsert (items : Items) (slug lang : String) (d : LangData) : Items :=
  let cur := (listGet items slug).getD []
  updOrAppend items slug (updOrAppend cur lang d)

/-- Inner loop of `collectProjects` over the slug directories of one
language folder: skip a slug without `index.md` (warning), abort on a read
error (`index.md` present but not a file). -/
def collectSlugs (root : FsPath) (lang : String) (fs : FS) :
    List String → Items → Option Items
  | [], items => some items
  | slug :: rest, items =>
    if (fs.lookup (root ++ [lang, slug, "index.md"])).isSome then
      match readdirNames fs (root ++ [lang, slug]) with
      | none => none
      | some files =>
        match fs.lookup (root ++ [lang, slug, "index.md"]) with
        | some (.file c) =>
          collectSlugs root lang fs rest
            (itemsInsert items slug lang
              { content := c
                files := files.filter fun f => f ≠ "index.md"
                sourcePath := root ++ [lang, slug] })
        | _ => none
    else
      collectSlugs root lang fs rest items

/-- Outer loop of `collectProjects` over the detected languages. -/
def collectGo (root : FsPath) (fs : FS) : List String → Items → Option Items
  | [], items => some items
  | lang :: rest, items =>
    if (fs.lookup (root ++ [lang])).isSome then
      match readdirDirs fs (root ++ [lang]) with
      | none => none
      | some slugDirs =>
        match collectSlugs root lang fs slugDirs items with
        | none => none
        | some items' => collectGo root fs rest items'
    else
      collectGo root fs rest items

/-- `collectProjects` (= `collectPosts`): walk the legacy layout and build
the in-memory `slug -> lang -> data` map. -/
def collectProjects (root : FsPath) (languages : List String) (fs : FS) : Option Items :=
  collectGo root fs languages []

/-- The `allMedia` set of the migration loop: insertion-ordered
`{ file, source }` pairs over all language versions (a JavaScript `Set` of
fresh objects never deduplicates, so it is exactly this list). -/
def allMedia (lvs : LangVersions) : List (String × FsPath) :=
  lvs.flatMap fun e => e.2.files.map fun f => (f, e.2.sourcePath ++ [f])

/-- The media-copy loop: dedup by file name via the `copiedMedia` set
(first-seen source wins); each actual copy is the `copyFileSync` helper,
i.e. `mkdirSync(dirname dest)` followed by `copyFileSync`.  In dry-run
mode no operation is emitted, but `copiedMedia` is still updated, exactly
as in the source. -/
def mediaCopyOps (dryRun : Bool) (itemDir : FsPath) :
    List (String × FsPath) → List String → List FsOp
  | [], _ => []
  | (f, src) :: rest, copied =>
    if f ∈ copied then mediaCopyOps dryRun itemDir rest copied
    else
      (if dryRun then [] else [.mkdir itemDir, .copy src (itemDir ++ [f])]) ++
        mediaCopyOps dryRun itemDir rest (f :: copied)

/-- The staging work of one item: create the staging item directory, write
each language document, then copy the media files. -/
def stageItemOps (dryRun : Bool) (root : FsPath) (slug : String) (lvs : LangVersions) :
    List FsOp :=
  (if dryRun then [] else [.mkdir (tempPath root ++ [slug])]) ++
    (lvs.flatMap fun e =>
      if dryRun then [] else
        [.write (tempPath root ++ [slug, e.1 ++ ".md"]) e.2.content]) ++
    mediaCopyOps dryRun (tempPath root ++ [slug]) (allMedia lvs) []

/-- All staging-phase operations of `migrate`: create the staging
directory, then stage every item in order. -/
def stagingOps (dryRun : Bool) (root : FsPath) (items : Items) : List FsOp :=
  (if dryRun then [] else [.mkdir (tempPath root)]) ++
    items.flatMap fun e => stageItemOps dryRun root e.1 e.2

/-- The `moveSync` helper: `mkdirSync(path.dirname(dest))` then
`renameSync`. -/
def moveSync (fs : FS) (src dest : FsPath) : Option FS := do
  let fs1 ← fs.applyMkdir dest.dropLast
  fs1.renamePath src dest

/-- Backup loop of the destructive phase: each existing original language
folder is relocated (renamed) into the backup directory. -/
def backupLangs (root : FsPath) : List String → FS → Option FS
  | [], fs => some fs
  | lang :: rest, fs =>
    if (fs.lookup (root ++ [lang])).isSome then
      match moveSync fs (root ++ [lang]) (backupPath root ++ [lang]) with
      | none => none
      | some fs1 => backupLangs root rest fs1
    else
      backupLangs root rest fs

/-- Promotion loop of the destructive phase: relocate every staged item
directory into the content root. -/
def promoteAll (root : FsPath) : List String → FS → Option FS
  | [], fs => some fs
  | slug :: rest, fs =>
    match moveSync fs (tempPath root ++ [slug]) (root ++ [slug]) with
    | none => none
    | some fs1 => promoteAll root rest fs1

/-- `migrate(languages, projects)`: stage everything (all mutations in the
staging loop are guarded by `if (!dryRun)`, which the op lists above
mirror), return after staging in dry-run mode, otherwise run the
destructive phase: back up the original language folders, promote the
staged item directories (the `readdirSync(tempDir)` directory listing),
and remove the staging area. -/
def migrate (dryRun : Bool) (root : FsPath) (languages : List String)
    (items : Items) (fs : FS) : Option FS := do
  let fs1 ← applyOps (stagingOps dryRun root items) fs
  if dryRun then
    some fs1
  else do
    let fs2 ← backupLangs root languages fs1
    let slugs ← readdirDirs fs2 (tempPath root)
    let fs3 ← promoteAll root slugs fs2
    fs3.applyRemove (tempPath root)

/-- `main`: detect languages (aborting when the root is absent), exit as a
no-op when none are found, otherwise collect and migrate. -/
def mainRun (dryRun : Bool) (root : FsPath) (fs : FS) : Option FS := do
  let languages ← detectLanguages root fs
  if languages.isEmpty then
    some fs
  else do
    let items ← collectProjects root languages fs
    migrate dryRun root languages items fs

/-!
## The render module (translation resolver and language switcher)

`config.js` is not part of the analyzed sources; per the spec, the
configured language list is a parameter (`languages`, first entry =
default language) and the resolver reads the same content root the
migrator produces.
-/

/-- Modelled from the spec: `config.sourceDir` (the content root the
resolver reads) is the migrator's content directory, `./content` — the
spec's data flow has the Translation Resolver consume the current layout
produced by the Structure Migrator. -/
def sourceDir : FsPath := ["content"]

/-- `s.endsWith(pat)` (implemented over the character list so that it
evaluates by reduction): `s` ends with `pat` iff the reversed characters of
`s` start with the reversed characters of `pat`. -/
def strEndsWith (s pat : String) : Bool :=
  decide (s.data.reverse.take pat.data.length = pat.data.reverse)

/-- Character-level worker for `replaceFirstMd`: remove the leftmost
occurrence of `".md"`, leave everything else unchanged. -/
def replaceFirstMdAux : List Char → List Char
  | [] => []
  | c :: rest =>
    if c = '.' then
      match rest with
      | 'm' :: 'd' :: rest2 => rest2
      | _ => c :: replaceFirstMdAux rest
    else c :: replaceFirstMdAux rest

/-- JavaScript `s.replace('.md', '')`: remove the first occurrence of
`".md"` (only the first — `String.prototype.replace` with a string pattern
replaces a single occurrence). -/
def replaceFirstMd (s : String) : String :=
  ⟨replaceFirstMdAux s.data⟩

/-- The value stored for one translation entry: for a file, the document's
truthy front-matter `slug` override or the folder slug
(`attributes.slug || folderSlug`); reading a directory named `{lang}.md`
throws, and the `catch` also falls back to the folder slug. -/
def translationEntryValue (parse : String → Option String) (folderSlug : String) :
    FS → String
  | .file c =>
    (match parse c with
      | some s => if s = "" then folderSlug else s
      | none => folderSlug)
  | .dir _ => folderSlug

/-- The `for (const file of fs.readdirSync(postDir))` loop of
`getPostTranslations`: keep `.md` entries whose stripped name is a
configured language, assigning `translations[lang]` in order.  (The loop
iterates the directory listing and reopens each name; on a real directory
names are unique, so iterating the entries directly is the same.) -/
def translationsFold (languages : List String) (parse : String → Option String)
    (folderSlug : String) :
    List (String × FS) → List (String × String) → List (String × String)
  | [], acc => acc
  | (f, sub) :: rest, acc =>
    if strEndsWith f ".md" then
      if replaceFirstMd f ∈ languages then
        translationsFold languages parse folderSlug rest
          (updOrAppend acc (replaceFirstMd f)
            (translationEntryValue parse folderSlug sub))
      else
        translationsFold languages parse folderSlug rest acc
    else
      translationsFold languages parse folderSlug rest acc

/-- Common body of `getPostTranslations` and `getProjectTranslations`:
empty when no languages are configured or the item directory does not
exist; an error (`none`) when the path exists but is not a directory
(`readdirSync` throws, uncaught). -/
def translationsIn (itemRoot : FsPath) (languages : List String)
    (parse : String → Option String) (fs : FS) (folderSlug : String) :
    Option (List (String × String)) :=
  if languages = [] then some []
  else
    match fs.lookup (itemRoot ++ [folderSlug]) with
    | none => some []
    | some (.file _) => none
    | some (.dir es) => some (translationsFold languages parse folderSlug es [])

/-- `getPostTranslations(folderSlug)`. -/
def getPostTranslations (languages : List String) (parse : String → Option String)
    (fs : FS) (folderSlug : String) : Option (List (String × String)) :=
  translationsIn (sourceDir ++ ["posts"]) languages parse fs folderSlug

/-- `getProjectTranslations(folderSlug)`. -/
def getProjectTranslations (languages : List String) (parse : String → Option String)
    (fs : FS) (folderSlug : String) : Option (List (String × String)) :=
  translationsIn (sourceDir ++ ["projects"]) languages parse fs folderSlug

/-- The `langNames` display-name table of `generateLanguageSwitcher`. -/
def langNames (lang : String) : Option String :=
  if lang = "en" then some "English"
  else if lang = "ru" then some "Русский"
  else if lang = "de" then some "Deutsch"
  else if lang = "zh" then some "中文"
  else if lang = "es" then some "Español"
  else if lang = "fr" then some "Français"
  else if lang = "ja" then some "日本語"
  else if lang = "ko" then some "한국어"
  else none

/-- `langNames[lang] || lang.toUpperCase()`. -/
def langDisplayName (lang : String) : String :=
  (langNames lang).getD lang.toUpper

/-- The `typeToPath` map with its `|| ''` fallback. -/
def typeToPath (ty : String) : String :=
  if ty = "post" then "posts"
  else if ty = "project" then "projects"
  else ""

/-- One rendered switcher entry: the current language is a plain `<span>`,
any other language a link. -/
inductive SwitcherEntry where
  | current (name : String)
  | link (href : String) (name : String)
deriving DecidableEq

/-- The HTML of one entry, exactly as produced by the template strings in
`generateLanguageSwitcher`. -/
def entryHtml : SwitcherEntry → String
  | .current n => "<span class=\"lang-current\">" ++ n ++ "</span>"
  | .link h n => "<a href=\"" ++ h ++ "\" class=\"lang-link\">" ++ n ++ "</a>"

/-- The per-language body of the `availableLangs.map` in
`generateLanguageSwitcher`: URL prefix from the default language,
per-language slug from the translations map with the `|| slug` fallback,
and the current/other rendering decision. -/
def switcherEntry (defaultLang currentLang slug : String)
    (translations : List (String × String)) (pathSegment : String)
    (lang : String) : SwitcherEntry :=
  let urlPrefix := if lang = defaultLang then "" else "/" ++ lang
  let langSlug :=
    match listGet translations lang with
    | some s => if s = "" then slug else s
    | none => slug
  let href :=
    if pathSegment = "" then urlPrefix ++ "/"
    else urlPrefix ++ "/" ++ pathSegment ++ "/" ++ langSlug ++ "/"
  if lang = currentLang then .current (langDisplayName lang)
  else .link href (langDisplayName lang)

/-- The assembled switcher markup (`links.join(' | ')` inside the
wrapping `div`). -/
def switcherHtml (defaultLang currentLang slug : String)
    (translations : List (String × String)) (pathSegment : String)
    (availableLangs : List String) : String :=
  "<div class=\"lang-switcher\">" ++
    String.intercalate " | "
      (availableLangs.map fun lang =>
        entryHtml (switcherEntry defaultLang currentLang slug translations pathSegment lang)) ++
    "</div>"

/-- The effective lookup slug `folderSlug || slug` of
`generateLanguageSwitcher` (the `|| slug` fallback also fires on an empty
string). -/
def lookupSlugOf (folderSlug : Option String) (slug : String) : String :=
  match folderSlug with
  | some s => if s = "" then slug else s
  | none => slug

/-- `generateLanguageSwitcher(currentLang, slug, type, folderSlug)`.
`folderSlug` is the optional fourth argument (`null` default); the
translation lookup uses `folderSlug || slug`.  For the `'post'` and
`'project'` types the translations map is resolved from disk and
`availableLangs` is its key set; otherwise the configured language list is
used with an empty map.  Returns `''` when fewer than two languages are
configured or fewer than two are available. -/
def generateLanguageSwitcher (languages : List String)
    (parse : String → Option String) (fs : FS) (currentLang slug : String)
    (ty : String) (folderSlug : Option String) : Option String :=
  if languages.length ≤ 1 then some ""
  else
    let defaultLang := languages.headD ""
    let lookupSlug :=
      match folderSlug with
      | some s => if s = "" then slug else s
      | none => slug
    do
      let ta ←
        if ty = "post" then
          (getPostTranslations languages parse fs lookupSlug).map fun t => (t, t.map Prod.fst)
        else if ty = "project" then
          (getProjectTranslations languages parse fs lookupSlug).map fun t => (t, t.map Prod.fst)
        else
          some (([] : List (String × String)), languages)
      if ta.2.length ≤ 1 then some ""
      else
        some (switcherHtml defaultLang currentLang slug ta.1 (typeToPath ty) ta.2)

/-- Does an operation copy onto the given destination path? (used to count
media copies). -/
def isCopyTo (dest : FsPath) : FsOp → Bool
  | .copy _ d => d = dest
  | _ => false

/-!
## Concrete fixtures

Small filesystem trees used to instantiate the theorems below on concrete
inputs.
-/

/-- A clean legacy projects tree: two languages, slug `p1` in both (with a
shared media name `diagram.png` and a `ru`-only `extra.gif`), slug `p2`
only in `en`. -/
def fsW : FS := .dir [("content", .dir [("projects", .dir [
  ("en", .dir [
    ("p1", .dir [("index.md", .file "EN1"), ("diagram.png", .file "IMG-EN")]),
    ("p2", .dir [("index.md", .file "EN2")])]),
  ("ru", .dir [
    ("p1", .dir [("index.md", .file "RU1"), ("diagram.png", .file "IMG-RU"),
      ("extra.gif", .file "GIF")])])])])]

/-- A legacy projects tree whose only item carries a media file named
`en.md` — the name of the migrated `en` document. -/
def fsBad : FS := .dir [("content", .dir [("projects", .dir [
  ("en", .dir [
    ("p", .dir [("index.md", .file "DOC"), ("en.md", .file "MEDIA")])])])])]

/-- A legacy posts tree with documents in `en` and in `xx`, a language
folder not present in the configured language list `["en", "ru"]`. -/
def fsP4 : FS := .dir [("content", .dir [("posts", .dir [
  ("en", .dir [("s", .dir [("index.md", .file "A")])]),
  ("xx", .dir [("s", .dir [("index.md", .file "B")])])])])]

/-- A clean legacy posts tree with documents in the configured languages
`en` and `ru`. -/
def fsP5 : FS := .dir [("content", .dir [("posts", .dir [
  ("en", .dir [("s", .dir [("index.md", .file "A"), ("pic.png", .file "P")])]),
  ("ru", .dir [("s", .dir [("index.md", .file "B")])])])])]

/-- A current-layout posts tree: item `setup-ssh` with an `en` document, a
`ru` document with a front-matter slug override, a stray `draft.md` and a
media file. -/
def fsNew : FS := .dir [("content", .dir [("posts", .dir [
  ("setup-ssh", .dir [("en.md", .file "x"), ("ru.md", .file "OVR"),
    ("draft.md", .file "d"), ("img.png", .file "i")])])])]

/-- A current-layout tree carrying the item `setup-ssh` both as a post
(with a `ru` front-matter slug override) and as a project (no override). -/
def fsC7 : FS := .dir [("content", .dir [
  ("posts", .dir [("setup-ssh", .dir [
    ("en.md", .file "x"), ("ru.md", .file "OVR")])]),
  ("projects", .dir [("setup-ssh", .dir [
    ("en.md", .file "x"), ("ru.md", .file "w")])])])]

/-- A tree without any content root. -/
def fsNoRoot : FS := .dir [("other", .dir [])]

/-- A tree whose projects root exists but contains no legacy language
folder (an empty directory and a stray file). -/
def fsNoLegacy : FS := .dir [("content", .dir [("projects", .dir [
  ("en", .dir []), ("readme.txt", .file "r")])])]

/-- A concrete front-matter parser: only the document body `OVR` declares
the slug override `custom-slug`. -/
def parse0 : String → Option String :=
  fun c => if c = "OVR" then some "custom-slug" else none

/-!
## Infrastructure: paths and lookup
-/

/-- Two paths are disjoint: neither lies on the other's chain, so an
operation whose targets all sit at or below one of them cannot affect a
lookup at the other. -/
abbrev PathsDisj (p q : FsPath) : Prop := ¬ p <+: q ∧ ¬ q <+: p

theorem pathsDisj_symm {p q : FsPath} (h : PathsDisj p q) : PathsDisj q p :=
  ⟨h.2, h.1⟩

theorem preOfSame {l₁ l₂ l₃ : FsPath} (h1 : l₁ <+: l₃) (h2 : l₂ <+: l₃) :
    l₁ <+: l₂ ∨ l₂ <+: l₁ :=
  List.prefix_or_prefix_of_prefix h1 h2

theorem preConsIff {a b : String} {l₁ l₂ : FsPath} :
    (a :: l₁ <+: b :: l₂) ↔ a = b ∧ l₁ <+: l₂ :=
  List.cons_prefix_cons

theorem preAppIff (x : FsPath) {a b : FsPath} : (x ++ a <+: x ++ b) ↔ (a <+: b) :=
  List.prefix_append_right_inj x

/-- Disjointness from `q` transfers down to anything at or below a target
`t` that is itself at or below `P`, when `q` is disjoint from `P`. -/
theorem pathsDisj_of_under {P t q : FsPath} (hP : ¬ P <+: q) (hq : ¬ q <+: P)
    (ht : P <+: t) : PathsDisj t q := by
  constructor
  · intro h
    exact hP (ht.trans h)
  · intro h
    rcases preOfSame h ht with h' | h'
    · exact hq h'
    · exact hP h'

/-- Sibling subtrees are disjoint: paths `b ++ x :: u` and `b ++ y :: v`
with `x ≠ y`. -/
theorem pathsDisj_sibling {b : FsPath} {x y : String} {u v : FsPath} (h : x ≠ y) :
    PathsDisj (b ++ x :: u) (b ++ y :: v) := by
  constructor
  · intro hp
    exact h (preConsIff.mp ((preAppIff b).mp hp)).1
  · intro hp
    exact h.symm (preConsIff.mp ((preAppIff b).mp hp)).1

namespace FS

theorem childGet_childSet_self (es : List (String × FS)) (n : String) (v : FS) :
    childGet (childSet es n v) n = some v := by
  induction es with
  | nil => simp [childSet, childGet]
  | cons e rest ih =>
    obtain ⟨k, w⟩ := e
    by_cases h : k = n
    · simp [childSet, h, childGet]
    · simp [childSet, h, childGet, ih]

theorem childGet_childSet_ne (es : List (String × FS)) {n m : String} (v : FS)
    (h : m ≠ n) : childGet (childSet es n v) m = childGet es m := by
  induction es with
  | nil => simp [childSet, childGet, Ne.symm h]
  | cons e rest ih =>
    obtain ⟨k, w⟩ := e
    by_cases hk : k = n
    · subst hk
      simp [childSet, childGet, Ne.symm h]
    · by_cases hm : k = m <;> simp [childSet, childGet, hk, hm, ih, h]

theorem childGet_childErase_ne (es : List (String × FS)) {n m : String}
    (h : m ≠ n) : childGet (childErase es n) m = childGet es m := by
  induction es with
  | nil => simp [childErase]
  | cons e rest ih =>
    obtain ⟨k, w⟩ := e
    by_cases hk : k = n
    · subst hk
      simp [childErase, childGet, Ne.symm h]
    · by_cases hm : k = m <;> simp [childErase, childGet, hk, hm, ih, h]

theorem childGet_isSome_iff {es : List (String × FS)} {n : String} :
    (childGet es n).isSome = true ↔ ∃ sub, (n, sub) ∈ es := by
  induction es with
  | nil => simp [childGet]
  | cons e rest ih =>
    obtain ⟨k, w⟩ := e
    by_cases hk : k = n
    · subst hk
      simp [childGet]
    · simp only [childGet, hk, if_false, ih]
      constructor
      · rintro ⟨sub, hsub⟩
        exact ⟨sub, List.mem_cons_of_mem _ hsub⟩
      · rintro ⟨sub, hsub⟩
        rcases List.mem_cons.mp hsub with h | h
        · cases h
          exact absurd rfl hk
        · exact ⟨sub, h⟩

theorem lookup_nil (t : FS) : t.lookup [] = some t := by
  cases t <;> rfl

theorem lookup_append (t : FS) (p q : FsPath) :
    t.lookup (p ++ q) = (t.lookup p).bind fun u => u.lookup q := by
  induction p generalizing t with
  | nil => simp [lookup]
  | cons n rest ih =>
    cases t with
    | file c => simp [lookup]
    | dir es =>
      simp only [List.cons_append, lookup]
      cases childGet es n with
      | none => simp
      | some u => simpa using ih u

theorem lookup_isSome_of_append {t : FS} {p q : FsPath}
    (h : (t.lookup (p ++ q)).isSome) : (t.lookup p).isSome := by
  rw [lookup_append] at h
  cases hp : t.lookup p with
  | none => rw [hp] at h; simp at h
  | some u => simp

end FS

/-!
## Infrastructure: locality of the primitives

Each mutating primitive changes lookups only along the chain of its target
path: a lookup at a path disjoint from every target is unchanged.
-/

namespace FS

theorem lookup_mkdirp_fresh {t' : FS} {p q : FsPath}
    (h : FS.mkdirp (.dir []) p = some t') (hd : PathsDisj p q) :
    t'.lookup q = none := by
  induction p generalizing t' q with
  | nil => exact absurd List.nil_prefix hd.1
  | cons n rest ih =>
    simp only [mkdirp, childGet] at h
    cases hrec : mkdirp (.dir []) rest with
    | none => rw [hrec] at h; simp at h
    | some u =>
      rw [hrec] at h
      simp only [Option.map_some'] at h
      cases h
      cases q with
      | nil => exact absurd List.nil_prefix hd.2
      | cons m q' =>
        by_cases hm : m = n
        · subst hm
          have hd' : PathsDisj rest q' :=
            ⟨fun hx => hd.1 (preConsIff.mpr ⟨rfl, hx⟩),
             fun hx => hd.2 (preConsIff.mpr ⟨rfl, hx⟩)⟩
          simp only [lookup, childSet, childGet, if_pos rfl]
          exact ih hrec hd'
        · have hnm : n ≠ m := fun h' => hm h'.symm
          simp [lookup, childSet, childGet, hnm]

theorem lookup_mkdirp_disj {t t' : FS} {p q : FsPath}
    (h : t.mkdirp p = some t') (hd : PathsDisj p q) :
    t'.lookup q = t.lookup q := by
  induction p generalizing t t' q with
  | nil =>
    exact absurd List.nil_prefix hd.1
  | cons n rest ih =>
    cases t with
    | file c => simp [mkdirp] at h
    | dir es =>
      simp only [mkdirp] at h
      cases hcg : childGet es n with
      | some child =>
        rw [hcg] at h
        simp only at h
        cases hrec : mkdirp child rest with
        | none => rw [hrec] at h; simp at h
        | some u =>
          rw [hrec] at h
          simp only [Option.map_some'] at h
          cases h
          cases q with
          | nil => exact absurd List.nil_prefix hd.2
          | cons m q' =>
            by_cases hm : m = n
            · subst hm
              have hd' : PathsDisj rest q' :=
                ⟨fun hx => hd.1 (preConsIff.mpr ⟨rfl, hx⟩),
                 fun hx => hd.2 (preConsIff.mpr ⟨rfl, hx⟩)⟩
              simp only [lookup, childGet_childSet_self, hcg]
              exact ih hrec hd'
            · simp [lookup, childGet_childSet_ne _ _ hm]
      | none =>
        rw [hcg] at h
        simp only at h
        cases hrec : mkdirp (.dir []) rest with
        | none => rw [hrec] at h; simp at h
        | some u =>
          rw [hrec] at h
          simp only [Option.map_some'] at h
          cases h
          cases q with
          | nil => exact absurd List.nil_prefix hd.2
          | cons m q' =>
            by_cases hm : m = n
            · subst hm
              have hd' : PathsDisj rest q' :=
                ⟨fun hx => hd.1 (preConsIff.mpr ⟨rfl, hx⟩),
                 fun hx => hd.2 (preConsIff.mpr ⟨rfl, hx⟩)⟩
              simp only [lookup, childGet_childSet_self, hcg]
              exact lookup_mkdirp_fresh hrec hd'
            · simp [lookup, childGet_childSet_ne _ _ hm, hcg]

theorem lookup_writeFile_disj {t t' : FS} {p q : FsPath} {c : String}
    (h : t.writeFile p c = some t') (hd : PathsDisj p q) :
    t'.lookup q = t.lookup q := by
  induction p generalizing t t' q with
  | nil => cases t <;> simp [writeFile] at h
  | cons n rest ih =>
    cases t with
    | file c0 => simp [writeFile] at h
    | dir es =>
      cases q with
      | nil => exact absurd List.nil_prefix hd.2
      | cons m q' =>
        cases rest with
        | nil =>
          by_cases hm : m = n
          · subst hm
            exact absurd (preConsIff.mpr ⟨rfl, List.nil_prefix⟩) hd.1
          · simp only [writeFile] at h
            cases hcg : childGet es n with
            | none =>
              rw [hcg] at h
              injection h with h
              subst h
              simp [lookup, childGet_childSet_ne _ _ hm]
            | some u =>
              rw [hcg] at h
              cases u with
              | file c0 =>
                injection h with h
                subst h
                simp [lookup, childGet_childSet_ne _ _ hm]
              | dir es0 => simp at h
        | cons m₂ rest₂ =>
          simp only [writeFile] at h
          cases hcg : childGet es n with
          | none => rw [hcg] at h; simp at h
          | some child =>
            rw [hcg] at h
            simp only at h
            cases hrec : writeFile child (m₂ :: rest₂) c with
            | none => rw [hrec] at h; simp at h
            | some u =>
              rw [hrec] at h
              simp only [Option.map_some'] at h
              cases h
              by_cases hm : m = n
              · subst hm
                have hd' : PathsDisj (m₂ :: rest₂) q' :=
                  ⟨fun hx => hd.1 (preConsIff.mpr ⟨rfl, hx⟩),
                   fun hx => hd.2 (preConsIff.mpr ⟨rfl, hx⟩)⟩
                simp only [lookup, childGet_childSet_self, hcg]
                exact ih hrec hd'
              · simp [lookup, childGet_childSet_ne _ _ hm]

theorem lookup_removePath_disj {t t' : FS} {p q : FsPath}
    (h : t.removePath p = some t') (hd : PathsDisj p q) :
    t'.lookup q = t.lookup q := by
  induction p generalizing t t' q with
  | nil => simp [removePath] at h
  | cons n rest ih =>
    cases t with
    | file c0 => simp [removePath] at h
    | dir es =>
      cases q with
      | nil => exact absurd List.nil_prefix hd.2
      | cons m q' =>
        cases rest with
        | nil =>
          by_cases hm : m = n
          · subst hm
            exact absurd (preConsIff.mpr ⟨rfl, List.nil_prefix⟩) hd.1
          · simp only [removePath] at h
            injection h with h
            subst h
            simp [lookup, childGet_childErase_ne _ hm]
        | cons m₂ rest₂ =>
          simp only [removePath] at h
          cases hcg : childGet es n with
          | none =>
            rw [hcg] at h
            injection h with h
            subst h
            rfl
          | some child =>
            rw [hcg] at h
            simp only at h
            cases hrec : removePath child (m₂ :: rest₂) with
            | none => rw [hrec] at h; simp at h
            | some u =>
              rw [hrec] at h
              simp only [Option.map_some'] at h
              cases h
              by_cases hm : m = n
              · subst hm
                have hd' : PathsDisj (m₂ :: rest₂) q' :=
                  ⟨fun hx => hd.1 (preConsIff.mpr ⟨rfl, hx⟩),
                   fun hx => hd.2 (preConsIff.mpr ⟨rfl, hx⟩)⟩
                simp only [lookup, childGet_childSet_self, hcg]
                exact ih hrec hd'
              · simp [lookup, childGet_childSet_ne _ _ hm]

theorem lookup_insertTree_disj {t t' sub : FS} {p q : FsPath}
    (h : t.insertTree p sub = some t') (hd : PathsDisj p q) :
    t'.lookup q = t.lookup q := by
  induction p generalizing t t' q with
  | nil => cases t <;> simp [insertTree] at h
  | cons n rest ih =>
    cases t with
    | file c0 => simp [insertTree] at h
    | dir es =>
      cases q with
      | nil => exact absurd List.nil_prefix hd.2
      | cons m q' =>
        cases rest with
        | nil =>
          by_cases hm : m = n
          · subst hm
            exact absurd (preConsIff.mpr ⟨rfl, List.nil_prefix⟩) hd.1
          · simp only [insertTree] at h
            injection h with h
            subst h
            simp [lookup, childGet_childSet_ne _ _ hm]
        | cons m₂ rest₂ =>
          simp only [insertTree] at h
          cases hcg : childGet es n with
          | none => rw [hcg] at h; simp at h
          | some child =>
            rw [hcg] at h
            simp only at h
            cases hrec : insertTree child (m₂ :: rest₂) sub with
            | none => rw [hrec] at h; simp at h
            | some u =>
              rw [hrec] at h
              simp only [Option.map_some'] at h
              cases h
              by_cases hm : m = n
              · subst hm
                have hd' : PathsDisj (m₂ :: rest₂) q' :=
                  ⟨fun hx => hd.1 (preConsIff.mpr ⟨rfl, hx⟩),
                   fun hx => hd.2 (preConsIff.mpr ⟨rfl, hx⟩)⟩
                simp only [lookup, childGet_childSet_self, hcg]
                exact ih hrec hd'
              · simp [lookup, childGet_childSet_ne _ _ hm]

theorem lookup_applyMkdir_disj {t t' : FS} {p q : FsPath}
    (h : t.applyMkdir p = some t') (hd : PathsDisj p q) :
    t'.lookup q = t.lookup q := by
  unfold applyMkdir at h
  split at h
  · cases h
    rfl
  · exact lookup_mkdirp_disj h hd

theorem lookup_applyRemove_disj {t t' : FS} {p q : FsPath}
    (h : t.applyRemove p = some t') (hd : PathsDisj p q) :
    t'.lookup q = t.lookup q := by
  unfold applyRemove at h
  split at h
  · exact lookup_removePath_disj h hd
  · cases h
    rfl

theorem lookup_copyFile_disj {t t' : FS} {src dest q : FsPath}
    (h : t.copyFile src dest = some t') (hd : PathsDisj dest q) :
    t'.lookup q = t.lookup q := by
  unfold copyFile at h
  cases hs : t.lookup src with
  | none => rw [hs] at h; simp at h
  | some sub =>
    rw [hs] at h
    cases sub with
    | file c => exact lookup_writeFile_disj h hd
    | dir es => simp at h

theorem lookup_renamePath_disj {t t' : FS} {src dest q : FsPath}
    (h : t.renamePath src dest = some t') (hs : PathsDisj src q)
    (hdq : PathsDisj dest q) : t'.lookup q = t.lookup q := by
  unfold renamePath at h
  cases hsub : t.lookup src with
  | none => rw [hsub] at h; simp at h
  | some sub =>
    rw [hsub] at h
    simp only at h
    split at h
    · simp at h
    · split at h
      case _ =>
        cases hrm : t.removePath src with
        | none => rw [hrm] at h; simp at h
        | some t1 =>
          rw [hrm] at h
          simp only [Option.bind_eq_bind, Option.some_bind] at h
          calc t'.lookup q = t1.lookup q := lookup_insertTree_disj h hdq
            _ = t.lookup q := lookup_removePath_disj hrm hs
      case _ es =>
        cases sub with
        | dir es0 =>
          cases hrm : t.removePath src with
          | none => rw [hrm] at h; simp at h
          | some t1 =>
            rw [hrm] at h
            simp only [Option.bind_eq_bind, Option.some_bind] at h
            calc t'.lookup q = t1.lookup q := lookup_insertTree_disj h hdq
              _ = t.lookup q := lookup_removePath_disj hrm hs
        | file c => simp at h
      case _ =>
        cases sub with
        | file c0 =>
          cases hrm : t.removePath src with
          | none => rw [hrm] at h; simp at h
          | some t1 =>
            rw [hrm] at h
            simp only [Option.bind_eq_bind, Option.some_bind] at h
            calc t'.lookup q = t1.lookup q := lookup_insertTree_disj h hdq
              _ = t.lookup q := lookup_removePath_disj hrm hs
        | dir es0 => simp at h
      case _ => simp at h

end FS

/-- Locality of a single operation: a lookup at a path disjoint from every
mutation target is unchanged. -/
theorem lookup_applyOp_disj {t t' : FS} {op : FsOp} {q : FsPath}
    (h : applyOp t op = some t') (hd : ∀ tgt ∈ op.touches, PathsDisj tgt q) :
    t'.lookup q = t.lookup q := by
  cases op with
  | mkdir p => exact FS.lookup_applyMkdir_disj h (hd p (by simp [FsOp.touches]))
  | write p c => exact FS.lookup_writeFile_disj h (hd p (by simp [FsOp.touches]))
  | copy s d => exact FS.lookup_copyFile_disj h (hd d (by simp [FsOp.touches]))
  | rename s d =>
    exact FS.lookup_renamePath_disj h (hd s (by simp [FsOp.touches]))
      (hd d (by simp [FsOp.touches]))
  | remove p => exact FS.lookup_applyRemove_disj h (hd p (by simp [FsOp.touches]))

/-- Locality of an operation list. -/
theorem lookup_applyOps_disj {ops : List FsOp} {t t' : FS} {q : FsPath}
    (h : applyOps ops t = some t')
    (hd : ∀ op ∈ ops, ∀ tgt ∈ op.touches, PathsDisj tgt q) :
    t'.lookup q = t.lookup q := by
  induction ops generalizing t with
  | nil =>
    cases h
    rfl
  | cons op rest ih =>
    rw [show applyOps (op :: rest) t = (applyOp t op).bind (applyOps rest) from rfl] at h
    cases h1 : applyOp t op with
    | none => rw [h1] at h; simp at h
    | some t1 =>
      rw [h1] at h
      simp only [Option.some_bind] at h
      calc t'.lookup q = t1.lookup q :=
            ih h (fun op' hop' => hd op' (List.mem_cons_of_mem _ hop'))
        _ = t.lookup q := lookup_applyOp_disj h1 (hd op (List.mem_cons_self _ _))

/-!
## Infrastructure: what each primitive establishes at its target
-/

namespace FS

theorem childGet_some_mem {es : List (String × FS)} {n : String} {v : FS}
    (h : childGet es n = some v) : (n, v) ∈ es := by
  induction es with
  | nil => simp [childGet] at h
  | cons e rest ih =>
    obtain ⟨k, w⟩ := e
    by_cases hk : k = n
    · subst hk
      simp [childGet] at h
      simp [h]
    · simp only [childGet, hk, if_false] at h
      exact List.mem_cons_of_mem _ (ih h)

theorem writeFile_lookup_self {t t' : FS} {p : FsPath} {c : String}
    (h : t.writeFile p c = some t') : t'.lookup p = some (.file c) := by
  induction p generalizing t t' with
  | nil => cases t <;> simp [writeFile] at h
  | cons n rest ih =>
    cases t with
    | file c0 => simp [writeFile] at h
    | dir es =>
      cases rest with
      | nil =>
        simp only [writeFile] at h
        cases hcg : childGet es n with
        | none =>
          rw [hcg] at h
          injection h with h
          subst h
          simp [lookup, childGet_childSet_self]
        | some u =>
          rw [hcg] at h
          cases u with
          | file c0 =>
            injection h with h
            subst h
            simp [lookup, childGet_childSet_self]
          | dir es0 => simp at h
      | cons m₂ rest₂ =>
        simp only [writeFile] at h
        cases hcg : childGet es n with
        | none => rw [hcg] at h; simp at h
        | some child =>
          rw [hcg] at h
          simp only at h
          cases hrec : writeFile child (m₂ :: rest₂) c with
          | none => rw [hrec] at h; simp at h
          | some u =>
            rw [hrec] at h
            simp only [Option.map_some'] at h
            cases h
            simp only [lookup, childGet_childSet_self]
            exact ih hrec

theorem insertTree_lookup_self {t t' sub : FS} {p : FsPath}
    (h : t.insertTree p sub = some t') (rest : FsPath) :
    t'.lookup (p ++ rest) = sub.lookup rest := by
  induction p generalizing t t' with
  | nil => cases t <;> simp [insertTree] at h
  | cons n tl ih =>
    cases t with
    | file c0 => simp [insertTree] at h
    | dir es =>
      cases tl with
      | nil =>
        simp only [insertTree] at h
        injection h with h
        subst h
        simp [lookup, childGet_childSet_self]
      | cons m₂ tl₂ =>
        simp only [insertTree] at h
        cases hcg : childGet es n with
        | none => rw [hcg] at h; simp at h
        | some child =>
          rw [hcg] at h
          simp only at h
          cases hrec : insertTree child (m₂ :: tl₂) sub with
          | none => rw [hrec] at h; simp at h
          | some u =>
            rw [hrec] at h
            simp only [Option.map_some'] at h
            cases h
            simp only [List.cons_append, lookup, childGet_childSet_self]
            exact ih hrec

theorem applyMkdir_of_isSome {t : FS} {p : FsPath} (h : (t.lookup p).isSome) :
    t.applyMkdir p = some t := by
  simp [applyMkdir, h]

theorem renamePath_src_isSome {t t' : FS} {src dest : FsPath}
    (h : t.renamePath src dest = some t') : (t.lookup src).isSome := by
  unfold renamePath at h
  cases hs : t.lookup src with
  | none => rw [hs] at h; simp at h
  | some sub => simp

/-- A successful rename places the source subtree at the destination. -/
theorem renamePath_lookup_dest {t t' sub : FS} {src dest : FsPath}
    (h : t.renamePath src dest = some t') (hsub : t.lookup src = some sub)
    (rest : FsPath) : t'.lookup (dest ++ rest) = sub.lookup rest := by
  unfold renamePath at h
  rw [hsub] at h
  simp only at h
  split at h
  · simp at h
  · split at h
    case _ =>
      cases hrm : t.removePath src with
      | none => rw [hrm] at h; simp at h
      | some t1 =>
        rw [hrm] at h
        simp only [Option.bind_eq_bind, Option.some_bind] at h
        exact insertTree_lookup_self h rest
    case _ =>
      cases sub with
      | dir es0 =>
        cases hrm : t.removePath src with
        | none => rw [hrm] at h; simp at h
        | some t1 =>
          rw [hrm] at h
          simp only [Option.bind_eq_bind, Option.some_bind] at h
          exact insertTree_lookup_self h rest
      | file c => simp at h
    case _ =>
      cases sub with
      | file c0 =>
        cases hrm : t.removePath src with
        | none => rw [hrm] at h; simp at h
        | some t1 =>
          rw [hrm] at h
          simp only [Option.bind_eq_bind, Option.some_bind] at h
          exact insertTree_lookup_self h rest
      | dir es0 => simp at h
    case _ => simp at h

/-- A rename onto a non-empty directory target fails. -/
theorem renamePath_dest_nonempty {t : FS} {src dest : FsPath} {e : String × FS}
    {es : List (String × FS)} (hdest : t.lookup dest = some (.dir (e :: es))) :
    t.renamePath src dest = none := by
  unfold renamePath
  cases hs : t.lookup src with
  | none => rfl
  | some sub =>
    simp only
    split
    · rfl
    · rw [hdest]

end FS

/-- A lookup extended at a path that resolves to a subtree: element form of
`lookup_append`. -/
theorem lookup_append_some {t u : FS} {p : FsPath} (h : t.lookup p = some u)
    (rest : FsPath) : t.lookup (p ++ rest) = u.lookup rest := by
  rw [FS.lookup_append, h]
  rfl

theorem applyOps_append_bind (l₁ l₂ : List FsOp) (t : FS) :
    applyOps (l₁ ++ l₂) t = (applyOps l₁ t).bind (applyOps l₂) := by
  simp [applyOps, List.foldlM_append]

theorem applyOps_cons_bind (op : FsOp) (rest : List FsOp) (t : FS) :
    applyOps (op :: rest) t = (applyOp t op).bind (applyOps rest) := rfl

/-!
## Infrastructure: the staging phase stays inside the staging area
-/

theorem mediaCopyOps_touches (itemDir : FsPath) :
    ∀ (pairs : List (String × FsPath)) (copied : List String),
      ∀ op ∈ mediaCopyOps false itemDir pairs copied,
        ∀ tgt ∈ op.touches, itemDir <+: tgt := by
  intro pairs
  induction pairs with
  | nil => intro copied op hop; simp [mediaCopyOps] at hop
  | cons pr rest ih =>
    intro copied op hop
    obtain ⟨f, src⟩ := pr
    by_cases hf : f ∈ copied
    · rw [mediaCopyOps, if_pos hf] at hop
      exact ih copied op hop
    · rw [mediaCopyOps, if_neg hf] at hop
      simp only [if_neg Bool.false_ne_true, List.cons_append, List.nil_append,
        List.mem_cons] at hop
      rcases hop with h | h | h
      · subst h
        intro tgt htgt
        simp only [FsOp.touches, List.mem_singleton] at htgt
        subst htgt
        exact List.prefix_rfl
      · subst h
        intro tgt htgt
        simp only [FsOp.touches, List.mem_singleton] at htgt
        subst htgt
        exact List.prefix_append _ _
      · exact ih (f :: copied) op h

theorem stageItemOps_touches (root : FsPath) (slug : String) (lvs : LangVersions) :
    ∀ op ∈ stageItemOps false root slug lvs,
      ∀ tgt ∈ op.touches, tempPath root ++ [slug] <+: tgt := by
  intro op hop
  simp only [stageItemOps, if_neg Bool.false_ne_true, List.mem_append,
    List.mem_cons, List.not_mem_nil, or_false, List.mem_flatMap] at hop
  rcases hop with (h | ⟨e, _, h⟩) | h
  · subst h
    intro tgt htgt
    simp only [FsOp.touches, List.mem_singleton] at htgt
    subst htgt
    exact List.prefix_rfl
  · subst h
    intro tgt htgt
    simp only [FsOp.touches, List.mem_singleton] at htgt
    subst htgt
    have : tempPath root ++ [slug, e.1 ++ ".md"] = (tempPath root ++ [slug]) ++ [e.1 ++ ".md"] := by
      simp
    rw [this]
    exact List.prefix_append _ _
  · exact mediaCopyOps_touches _ _ _ op h

theorem stagingOps_touches (root : FsPath) (items : Items) :
    ∀ op ∈ stagingOps false root items,
      ∀ tgt ∈ op.touches, tempPath root <+: tgt := by
  intro op hop
  simp only [stagingOps, if_neg Bool.false_ne_true, List.mem_append, List.mem_cons,
    List.not_mem_nil, or_false, List.mem_flatMap] at hop
  rcases hop with h | ⟨e, _, h⟩
  · subst h
    intro tgt htgt
    simp only [FsOp.touches, List.mem_singleton] at htgt
    subst htgt
    exact List.prefix_rfl
  · intro tgt htgt
    exact (List.prefix_append _ _).trans (stageItemOps_touches root e.1 e.2 op h tgt htgt)

/-- Applying any portion of the live staging phase leaves every path
disjoint from the staging area unchanged. -/
theorem staging_localized {root : FsPath} {items : Items} {pre : List FsOp}
    {fs fs' : FS} (hpre : pre <+: stagingOps false root items)
    (h : applyOps pre fs = some fs') {q : FsPath}
    (h1 : ¬ tempPath root <+: q) (h2 : ¬ q <+: tempPath root) :
    fs'.lookup q = fs.lookup q :=
  lookup_applyOps_disj h fun op hop tgt htgt =>
    pathsDisj_of_under h1 h2 (stagingOps_touches root items op (hpre.subset hop) tgt htgt)

/-!
## Infrastructure: dry-run emits no operation
-/

theorem mediaCopyOps_dryRun (itemDir : FsPath) :
    ∀ (pairs : List (String × FsPath)) (copied : List String),
      mediaCopyOps true itemDir pairs copied = [] := by
  intro pairs
  induction pairs with
  | nil => intro copied; rfl
  | cons pr rest ih =>
    intro copied
    obtain ⟨f, src⟩ := pr
    by_cases hf : f ∈ copied
    · rw [mediaCopyOps, if_pos hf]
      exact ih copied
    · rw [mediaCopyOps, if_neg hf, if_pos rfl]
      simpa using ih (f :: copied)

theorem stageItemOps_dryRun (root : FsPath) (slug : String) (lvs : LangVersions) :
    stageItemOps true root slug lvs = [] := by
  simp [stageItemOps, mediaCopyOps_dryRun]

theorem stagingOps_dryRun (root : FsPath) (items : Items) :
    stagingOps true root items = [] := by
  simp [stagingOps, stageItemOps_dryRun]

/-- In dry-run mode `migrate` emits no operation and succeeds with the
filesystem unchanged. -/
theorem migrate_dryRun (root : FsPath) (languages : List String) (items : Items)
    (fs : FS) : migrate true root languages items fs = some fs := by
  simp [migrate, stagingOps_dryRun, applyOps]

/-- C5: for every input, running `migrate` in dry-run mode performs no
filesystem mutation whatsoever: the staging loop emits no operation (every
mutation site is guarded by `if (!dryRun)`), the run returns before the
destructive phase, and the resulting filesystem equals the input
filesystem — a before/after snapshot shows no differences. -/
theorem claim_C5 (root : FsPath) (languages : List String) (items : Items)
    (fs : FS) :
    migrate true root languages items fs = some fs ∧
      stagingOps true root items = [] :=
  ⟨migrate_dryRun root languages items fs, stagingOps_dryRun root items⟩

/-- C1: in a live-mode run, every staging-phase operation targets the
staging area `{root}/_new_structure` only; consequently, after any portion
of the staging phase (in particular at the point where a filesystem error
aborts the run), every path outside the staging area — in particular every
original language folder and every content-root entry other than the
staging directory — is exactly as it was, so nothing has been relocated,
deleted or promoted; and when staging fails, the whole run fails before
the destructive phase. -/
theorem claim_C1 (root : FsPath) (languages : List String) (items : Items)
    (pre : List FsOp) (hpre : pre <+: stagingOps false root items)
    (fs fs' : FS) (h : applyOps pre fs = some fs') :
    (∀ op ∈ stagingOps false root items, ∀ tgt ∈ op.touches,
        tempPath root <+: tgt) ∧
    (∀ q, ¬ tempPath root <+: q → ¬ q <+: tempPath root →
        fs'.lookup q = fs.lookup q) ∧
    (∀ lang, lang ≠ "_new_structure" →
        fs'.lookup (root ++ [lang]) = fs.lookup (root ++ [lang])) ∧
    (applyOps (stagingOps false root items) fs = none →
        migrate false root languages items fs = none) := by
  refine ⟨stagingOps_touches root items, ?_, ?_, ?_⟩
  · intro q h1 h2
    exact staging_localized hpre h h1 h2
  · intro lang hlang
    have hd : PathsDisj (tempPath root) (root ++ [lang]) := by
      have := pathsDisj_sibling (b := root) (u := []) (v := [])
        (x := "_new_structure") (y := lang) (Ne.symm hlang)
      simpa [tempPath] using this
    exact staging_localized hpre h hd.1 hd.2
  · intro hfail
    unfold migrate
    rw [hfail]
    rfl

/-- C1 instantiated: on the concrete legacy tree `fsW`, after the full
live staging phase the original `en` language folder is untouched. -/
theorem claim_C1_witness :
    ((applyOps
        (stagingOps false projectsDir
          ((collectProjects projectsDir ["en", "ru"] fsW).getD []))
        fsW).getD (.dir [])).lookup (projectsDir ++ ["en"]) =
      fsW.lookup (projectsDir ++ ["en"]) := by
  have h : applyOps
      (stagingOps false projectsDir
        ((collectProjects projectsDir ["en", "ru"] fsW).getD []))
      fsW = some ((applyOps
        (stagingOps false projectsDir
          ((collectProjects projectsDir ["en", "ru"] fsW).getD []))
        fsW).getD (.dir [])) := rfl
  exact (claim_C1 projectsDir ["en", "ru"] _ _ List.prefix_rfl fsW _ h).2.2.1 "en"
    (by decide)

/-!
## Infrastructure: the media-copy loop
-/

theorem copyFile_some {t t' : FS} {src dest : FsPath}
    (h : t.copyFile src dest = some t') :
    ∃ c, t.lookup src = some (.file c) ∧ t'.lookup dest = some (.file c) := by
  unfold FS.copyFile at h
  cases hs : t.lookup src with
  | none => rw [hs] at h; simp at h
  | some sub =>
    rw [hs] at h
    cases sub with
    | file c => exact ⟨c, rfl, FS.writeFile_lookup_self h⟩
    | dir es => simp at h

/-- Once a name is protected (already recorded as copied, or absent from
the remaining media list), the media loop leaves the staged file of that
name unchanged. -/
theorem mediaOps_preserve {itemDir : FsPath} {x : String} {v : FS} :
    ∀ {pairs : List (String × FsPath)} {copied : List String} {fs fs' : FS},
      applyOps (mediaCopyOps false itemDir pairs copied) fs = some fs' →
      (x ∈ copied ∨ ∀ pr ∈ pairs, pr.1 ≠ x) →
      fs.lookup (itemDir ++ [x]) = some v →
      fs'.lookup (itemDir ++ [x]) = some v := by
  intro pairs
  induction pairs with
  | nil =>
    intro copied fs fs' h _ hv
    rw [mediaCopyOps] at h
    cases h
    exact hv
  | cons pr rest ih =>
    intro copied fs fs' h hcond hv
    obtain ⟨f, src⟩ := pr
    by_cases hf : f ∈ copied
    · rw [mediaCopyOps, if_pos hf] at h
      refine ih h ?_ hv
      rcases hcond with hc | hc
      · exact Or.inl hc
      · exact Or.inr fun pr' hpr' => hc pr' (List.mem_cons_of_mem _ hpr')
    · rw [mediaCopyOps, if_neg hf, if_neg Bool.false_ne_true] at h
      have hfx : f ≠ x := by
        rcases hcond with hc | hc
        · intro he; exact hf (he ▸ hc)
        · exact hc (f, src) (List.mem_cons_self _ _)
      rw [List.cons_append, List.cons_append, List.nil_append,
        applyOps_cons_bind] at h
      have hpar : (fs.lookup itemDir).isSome :=
        FS.lookup_isSome_of_append (p := itemDir) (q := [x]) (by simp [hv])
      rw [show applyOp fs (.mkdir itemDir) = fs.applyMkdir itemDir from rfl,
        FS.applyMkdir_of_isSome hpar] at h
      simp only [Option.some_bind] at h
      rw [applyOps_cons_bind] at h
      cases hcp : applyOp fs (.copy src (itemDir ++ [f])) with
      | none => rw [hcp] at h; simp at h
      | some fs2 =>
        rw [hcp] at h
        simp only [Option.some_bind] at h
        have hv2 : fs2.lookup (itemDir ++ [x]) = some v := by
          have hd : PathsDisj (itemDir ++ [f]) (itemDir ++ [x]) := by
            have := pathsDisj_sibling (b := itemDir) (u := []) (v := [])
              (x := f) (y := x) hfx
            simpa using this
          calc fs2.lookup (itemDir ++ [x])
              = fs.lookup (itemDir ++ [x]) := lookup_applyOp_disj hcp
                (by intro tgt htgt
                    simp only [FsOp.touches, List.mem_singleton] at htgt
                    subst htgt
                    exact hd)
            _ = some v := hv
        refine ih h ?_ hv2
        rcases hcond with hc | hc
        · exact Or.inl (List.mem_cons_of_mem _ hc)
        · exact Or.inr fun pr' hpr' => hc pr' (List.mem_cons_of_mem _ hpr')

/-- The media loop materializes each new name from the first
`{ file, source }` pair carrying it, reading the source as it was when the
loop started. -/
theorem mediaOps_value {itemDir : FsPath} {n : String} :
    ∀ {pairs : List (String × FsPath)} {copied : List String} {fs fs' : FS}
      {pr : String × FsPath},
      applyOps (mediaCopyOps false itemDir pairs copied) fs = some fs' →
      n ∉ copied →
      pairs.find? (fun e => e.1 = n) = some pr →
      (∀ e ∈ pairs, PathsDisj e.2 itemDir) →
      ∃ c, fs.lookup pr.2 = some (.file c) ∧
        fs'.lookup (itemDir ++ [n]) = some (.file c) := by
  intro pairs
  induction pairs with
  | nil =>
    intro copied fs fs' pr _ _ hfind _
    simp at hfind
  | cons e rest ih =>
    intro copied fs fs' pr h hn hfind hd
    obtain ⟨f, src⟩ := e
    by_cases hf : f ∈ copied
    · have hfn : f ≠ n := fun he => hn (he ▸ hf)
      rw [List.find?_cons_of_neg _ (by simp [hfn])] at hfind
      rw [mediaCopyOps, if_pos hf] at h
      exact ih h hn hfind fun e' he' => hd e' (List.mem_cons_of_mem _ he')
    · rw [mediaCopyOps, if_neg hf, if_neg Bool.false_ne_true] at h
      rw [List.cons_append, List.cons_append, List.nil_append,
        applyOps_cons_bind] at h
      cases hmk : applyOp fs (.mkdir itemDir) with
      | none => rw [hmk] at h; simp at h
      | some fs1 =>
        rw [hmk] at h
        simp only [Option.some_bind] at h
        rw [applyOps_cons_bind] at h
        cases hcp : applyOp fs1 (.copy src (itemDir ++ [f])) with
        | none => rw [hcp] at h; simp at h
        | some fs2 =>
          rw [hcp] at h
          simp only [Option.some_bind] at h
          have hdsrc : PathsDisj src itemDir := hd (f, src) (List.mem_cons_self _ _)
          have hsrc1 : fs1.lookup src = fs.lookup src := lookup_applyOp_disj hmk
            (by intro tgt htgt
                simp only [FsOp.touches, List.mem_singleton] at htgt
                subst htgt
                exact pathsDisj_symm hdsrc)
          by_cases hfn : f = n
          · subst hfn
            rw [List.find?_cons_of_pos _ (by simp)] at hfind
            cases hfind
            obtain ⟨c, hc1, hc2⟩ := copyFile_some hcp
            refine ⟨c, by rw [← hsrc1]; exact hc1, ?_⟩
            exact mediaOps_preserve h (Or.inl (List.mem_cons_self _ _)) hc2
          · rw [List.find?_cons_of_neg _ (by simp [hfn])] at hfind
            have hpr2 : PathsDisj pr.2 itemDir :=
              hd pr (List.mem_cons_of_mem _ (List.mem_of_find?_eq_some hfind))
            have hsrc2 : fs2.lookup pr.2 = fs1.lookup pr.2 := lookup_applyOp_disj hcp
              (by intro tgt htgt
                  simp only [FsOp.touches, List.mem_singleton] at htgt
                  subst htgt
                  exact pathsDisj_of_under hpr2.2 hpr2.1 (List.prefix_append _ _))
            have hpr1 : fs1.lookup pr.2 = fs.lookup pr.2 := lookup_applyOp_disj hmk
              (by intro tgt htgt
                  simp only [FsOp.touches, List.mem_singleton] at htgt
                  subst htgt
                  exact pathsDisj_symm hpr2)
            obtain ⟨c, hc1, hc2⟩ := ih h (by simp [hn, Ne.symm hfn]) hfind
              (fun e' he' => hd e' (List.mem_cons_of_mem _ he'))
            refine ⟨c, ?_, hc2⟩
            rw [← hpr1, ← hsrc2]
            exact hc1

/-- A name already recorded as copied is never copied again. -/
theorem mediaCopyOps_count_zero {itemDir : FsPath} {n : String} :
    ∀ (pairs : List (String × FsPath)) (copied : List String), n ∈ copied →
      (mediaCopyOps false itemDir pairs copied).countP
        (fun op => isCopyTo (itemDir ++ [n]) op) = 0 := by
  intro pairs
  induction pairs with
  | nil => intro copied _; rfl
  | cons e rest ih =>
    intro copied hn
    obtain ⟨f, src⟩ := e
    by_cases hf : f ∈ copied
    · rw [mediaCopyOps, if_pos hf]
      exact ih copied hn
    · have hfn : f ≠ n := fun he => hf (he ▸ hn)
      rw [mediaCopyOps, if_neg hf, if_neg Bool.false_ne_true]
      rw [List.cons_append, List.cons_append, List.nil_append]
      rw [List.countP_cons, List.countP_cons]
      have h1 : isCopyTo (itemDir ++ [n]) (.mkdir itemDir) = false := rfl
      have h2 : isCopyTo (itemDir ++ [n]) (.copy src (itemDir ++ [f])) = false := by
        simp only [isCopyTo, decide_eq_false_iff_not]
        intro he
        exact hfn (by simpa using (List.append_right_inj itemDir).mp he)
      rw [h1, h2]
      simpa using ih (f :: copied) (List.mem_cons_of_mem _ hn)

/-- The media loop emits exactly one copy onto a fresh staged name that
occurs in the media list, and none onto a name that does not. -/
theorem mediaCopyOps_count {itemDir : FsPath} {n : String} :
    ∀ (pairs : List (String × FsPath)) (copied : List String), n ∉ copied →
      (mediaCopyOps false itemDir pairs copied).countP
          (fun op => isCopyTo (itemDir ++ [n]) op) =
        (if n ∈ pairs.map Prod.fst then 1 else 0) := by
  intro pairs
  induction pairs with
  | nil => intro copied _; simp [mediaCopyOps]
  | cons e rest ih =>
    intro copied hn
    obtain ⟨f, src⟩ := e
    by_cases hf : f ∈ copied
    · have hfn : f ≠ n := fun he => hn (he ▸ hf)
      rw [mediaCopyOps, if_pos hf]
      rw [ih copied hn]
      have hnf : ¬ n = f := fun he => hfn he.symm
      by_cases hmem : n ∈ List.map Prod.fst rest <;> simp [hmem, List.mem_cons, hnf]
    · rw [mediaCopyOps, if_neg hf, if_neg Bool.false_ne_true]
      rw [List.cons_append, List.cons_append, List.nil_append]
      rw [List.countP_cons, List.countP_cons]
      have h1 : isCopyTo (itemDir ++ [n]) (.mkdir itemDir) = false := rfl
      by_cases hfn : f = n
      · subst hfn
        have h2 : isCopyTo (itemDir ++ [f]) (.copy src (itemDir ++ [f])) = true := by
          simp [isCopyTo]
        rw [h1, h2]
        rw [mediaCopyOps_count_zero rest (f :: copied) (List.mem_cons_self _ _)]
        simp
      · have h2 : isCopyTo (itemDir ++ [n]) (.copy src (itemDir ++ [f])) = false := by
          simp only [isCopyTo, decide_eq_false_iff_not]
          intro he
          exact hfn (by simpa using (List.append_right_inj itemDir).mp he)
        rw [h1, h2]
        rw [ih (f :: copied) (by simp [hn, Ne.symm hfn])]
        have hnf : ¬ n = f := fun he => hfn he.symm
        by_cases hmem : n ∈ List.map Prod.fst rest <;> simp [hmem, List.mem_cons, hnf]

/-!
## Infrastructure: the destructive phase
-/

theorem lookup_parent_dir {t v : FS} {p : FsPath} {x : String}
    (h : t.lookup (p ++ [x]) = some v) :
    ∃ es, t.lookup p = some (.dir es) ∧ FS.childGet es x = some v := by
  rw [FS.lookup_append] at h
  cases hp : t.lookup p with
  | none => rw [hp] at h; simp at h
  | some u =>
    rw [hp] at h
    cases u with
    | file c => simp [FS.lookup] at h
    | dir es =>
      refine ⟨es, rfl, ?_⟩
      simp only [Option.some_bind, FS.lookup] at h
      cases hcg : FS.childGet es x with
      | none => rw [hcg] at h; simp at h
      | some w =>
        rw [hcg] at h
        simp only [FS.lookup] at h
        exact h

theorem childGet_ne_nil {es : List (String × FS)} {x : String} {v : FS}
    (h : FS.childGet es x = some v) : es ≠ [] := by
  intro he
  subst he
  simp [FS.childGet] at h

theorem mem_readdirDirs {fs : FS} {p : FsPath} {slugs : List String} {x : String}
    {es : List (String × FS)} (h : readdirDirs fs p = some slugs)
    (hx : fs.lookup (p ++ [x]) = some (.dir es)) : x ∈ slugs := by
  obtain ⟨ES, hES, hcg⟩ := lookup_parent_dir hx
  unfold readdirDirs at h
  rw [hES] at h
  injection h with h
  subst h
  refine List.mem_filterMap.mpr ⟨(x, .dir es), FS.childGet_some_mem hcg, rfl⟩

theorem moveSync_dest_nonempty {fs : FS} {src b : FsPath} {x : String}
    {e : String × FS} {es : List (String × FS)}
    (hb : fs.lookup (b ++ [x]) = some (.dir (e :: es)))
    (hroot : (fs.lookup b).isSome) : moveSync fs src (b ++ [x]) = none := by
  unfold moveSync
  rw [List.dropLast_concat, FS.applyMkdir_of_isSome hroot]
  simp only [Option.bind_eq_bind, Option.some_bind]
  exact FS.renamePath_dest_nonempty hb

/-- Decompose a successful live run into its four phases. -/
theorem migrate_live_parts {root : FsPath} {L : List String} {items : Items}
    {fs₀ fs' : FS} (h : migrate false root L items fs₀ = some fs') :
    ∃ fs₁ fs₂ slugs fs₃,
      applyOps (stagingOps false root items) fs₀ = some fs₁ ∧
      backupLangs root L fs₁ = some fs₂ ∧
      readdirDirs fs₂ (tempPath root) = some slugs ∧
      promoteAll root slugs fs₂ = some fs₃ ∧
      fs₃.applyRemove (tempPath root) = some fs' := by
  unfold migrate at h
  cases h1 : applyOps (stagingOps false root items) fs₀ with
  | none => rw [h1] at h; simp at h
  | some fs₁ =>
    rw [h1] at h
    simp only [Option.bind_eq_bind, Option.some_bind, if_neg Bool.false_ne_true] at h
    cases h2 : backupLangs root L fs₁ with
    | none => rw [h2] at h; simp at h
    | some fs₂ =>
      rw [h2] at h
      simp only [Option.some_bind] at h
      cases h3 : readdirDirs fs₂ (tempPath root) with
      | none => rw [h3] at h; simp at h
      | some slugs =>
        rw [h3] at h
        simp only [Option.some_bind] at h
        cases h4 : promoteAll root slugs fs₂ with
        | none => rw [h4] at h; simp at h
        | some fs₃ =>
          rw [h4] at h
          simp only [Option.some_bind] at h
          exact ⟨fs₁, fs₂, slugs, fs₃, rfl, h2, h3, h4, h⟩

/-- The backup loop leaves unchanged any path disjoint from all its
targets (the original language folders, their backup destinations, and the
backup directory itself). -/
theorem backupLangs_keeps {root : FsPath} {L : List String} :
    ∀ {fs fs' : FS}, backupLangs root L fs = some fs' →
    ∀ {q : FsPath},
      (∀ lang ∈ L, PathsDisj (root ++ [lang]) q ∧
        PathsDisj (backupPath root ++ [lang]) q) →
      PathsDisj (backupPath root) q →
      fs'.lookup q = fs.lookup q := by
  induction L with
  | nil =>
    intro fs fs' h q _ _
    cases h
    rfl
  | cons lang rest ih =>
    intro fs fs' h q hq hbk
    rw [backupLangs] at h
    split at h
    · cases hmv : moveSync fs (root ++ [lang]) (backupPath root ++ [lang]) with
      | none => rw [hmv] at h; simp at h
      | some fs1 =>
        rw [hmv] at h
        simp only at h
        have hstep : fs1.lookup q = fs.lookup q := by
          unfold moveSync at hmv
          rw [List.dropLast_concat] at hmv
          cases hmk : fs.applyMkdir (backupPath root) with
          | none => rw [hmk] at hmv; simp at hmv
          | some fsm =>
            rw [hmk] at hmv
            simp only [Option.bind_eq_bind, Option.some_bind] at hmv
            have h1 : fsm.lookup q = fs.lookup q :=
              FS.lookup_applyMkdir_disj hmk hbk
            have h2 : fs1.lookup q = fsm.lookup q := by
              refine FS.lookup_renamePath_disj hmv ?_ ?_
              · exact (hq lang (List.mem_cons_self _ _)).1
              · exact (hq lang (List.mem_cons_self _ _)).2
            rw [h2, h1]
        rw [ih h (fun l hl => hq l (List.mem_cons_of_mem _ hl)) hbk, hstep]
    · exact ih h (fun l hl => hq l (List.mem_cons_of_mem _ hl)) hbk

/-- Once a language folder has been relocated into the backup directory,
the remaining backup moves do not disturb it. -/
theorem backupLangs_keeps_moved {root : FsPath} {L : List String} :
    ∀ {fs fs' : FS}, backupLangs root L fs = some fs' →
    "_old_structure_backup" ∉ L →
    ∀ {lang : String}, lang ∉ L →
    (fs.lookup (backupPath root)).isSome →
    ∀ rest, fs'.lookup (backupPath root ++ lang :: rest) =
      fs.lookup (backupPath root ++ lang :: rest) := by
  induction L with
  | nil =>
    intro fs fs' h _ lang _ _ rest
    cases h
    rfl
  | cons l0 tl ih =>
    intro fs fs' h hosb lang hlang hbk rest
    rw [backupLangs] at h
    split at h
    · cases hmv : moveSync fs (root ++ [l0]) (backupPath root ++ [l0]) with
      | none => rw [hmv] at h; simp at h
      | some fs1 =>
        rw [hmv] at h
        simp only at h
        have hl0osb : l0 ≠ "_old_structure_backup" :=
          fun he => hosb (he ▸ List.mem_cons_self _ _)
        have hl0lang : l0 ≠ lang := fun he => hlang (he ▸ List.mem_cons_self _ _)
        have hq : PathsDisj (root ++ [l0]) (backupPath root ++ lang :: rest) := by
          have := pathsDisj_sibling (b := root) (u := []) (v := lang :: rest)
            (x := l0) (y := "_old_structure_backup") hl0osb
          simpa [backupPath] using this
        have hq2 : PathsDisj (backupPath root ++ [l0])
            (backupPath root ++ lang :: rest) :=
          pathsDisj_sibling (b := backupPath root) (u := []) (v := rest) hl0lang
        unfold moveSync at hmv
        rw [List.dropLast_concat] at hmv
        cases hmk : fs.applyMkdir (backupPath root) with
        | none => rw [hmk] at hmv; simp at hmv
        | some fsm =>
          rw [hmk] at hmv
          simp only [Option.bind_eq_bind, Option.some_bind] at hmv
          have hmkeq : fsm = fs := by
            have := FS.applyMkdir_of_isSome hbk
            rw [this] at hmk
            injection hmk with hmk
            exact hmk.symm
          subst hmkeq
          have hstep : fs1.lookup (backupPath root ++ lang :: rest) =
              fsm.lookup (backupPath root ++ lang :: rest) :=
            FS.lookup_renamePath_disj hmv hq hq2
          have hbk1 : (fs1.lookup (backupPath root)).isSome := by
            obtain ⟨sub, hsub⟩ :=
              Option.isSome_iff_exists.mp (FS.renamePath_src_isSome hmv)
            have hdst := FS.renamePath_lookup_dest hmv hsub []
            rw [List.append_nil] at hdst
            exact FS.lookup_isSome_of_append (p := backupPath root) (q := [l0])
              (by rw [hdst, FS.lookup_nil]; rfl)
          rw [ih h (fun he => hosb (List.mem_cons_of_mem _ he))
            (fun he => hlang (List.mem_cons_of_mem _ he)) hbk1 rest, hstep]
    · exact ih h (fun he => hosb (List.mem_cons_of_mem _ he))
        (fun he => hlang (List.mem_cons_of_mem _ he)) hbk rest

/-- The backup loop relocates each existing original language folder, with
its entire subtree intact, into the backup directory. -/
theorem backupLangs_moves {root : FsPath} {L : List String} :
    ∀ {fs fs' : FS}, backupLangs root L fs = some fs' →
    L.Nodup → "_old_structure_backup" ∉ L →
    ∀ {lang : String} {sub : FS}, lang ∈ L →
    fs.lookup (root ++ [lang]) = some sub →
    ∀ rest, fs'.lookup (backupPath root ++ lang :: rest) = sub.lookup rest := by
  induction L with
  | nil =>
    intro fs fs' _ _ _ lang sub hlang
    simp at hlang
  | cons l0 tl ih =>
    intro fs fs' h hnd hosb lang sub hlang hsub rest
    rw [backupLangs] at h
    have hl0osb : l0 ≠ "_old_structure_backup" :=
      fun he => hosb (he ▸ List.mem_cons_self _ _)
    rcases List.mem_cons.mp hlang with heq | htl
    · subst heq
      rw [if_pos (by rw [hsub]; rfl)] at h
      cases hmv : moveSync fs (root ++ [lang]) (backupPath root ++ [lang]) with
      | none => rw [hmv] at h; simp at h
      | some fs1 =>
        rw [hmv] at h
        simp only at h
        unfold moveSync at hmv
        rw [List.dropLast_concat] at hmv
        cases hmk : fs.applyMkdir (backupPath root) with
        | none => rw [hmk] at hmv; simp at hmv
        | some fsm =>
          rw [hmk] at hmv
          simp only [Option.bind_eq_bind, Option.some_bind] at hmv
          have hsubm : fsm.lookup (root ++ [lang]) = some sub := by
            have hd : PathsDisj (backupPath root) (root ++ [lang]) := by
              have := pathsDisj_sibling (b := root) (u := []) (v := [])
                (x := "_old_structure_backup") (y := lang) (Ne.symm hl0osb)
              simpa [backupPath] using this
            rw [FS.lookup_applyMkdir_disj hmk hd, hsub]
          have hdst := FS.renamePath_lookup_dest hmv hsubm rest
          have hdst' : fs1.lookup (backupPath root ++ lang :: rest) =
              sub.lookup rest := by
            rw [← hdst]
            congr 1
            simp
          have hbk1 : (fs1.lookup (backupPath root)).isSome := by
            have hdst0 := FS.renamePath_lookup_dest hmv hsubm []
            rw [List.append_nil] at hdst0
            exact FS.lookup_isSome_of_append (p := backupPath root) (q := [lang])
              (by rw [hdst0, FS.lookup_nil]; rfl)
          have hkeep := backupLangs_keeps_moved h
            (fun he => hosb (List.mem_cons_of_mem _ he))
            (List.nodup_cons.mp hnd).1 hbk1 rest
          rw [hkeep, hdst']
    · have hl0lang : l0 ≠ lang := by
        intro he
        subst he
        exact (List.nodup_cons.mp hnd).1 htl
      split at h
      · cases hmv : moveSync fs (root ++ [l0]) (backupPath root ++ [l0]) with
        | none => rw [hmv] at h; simp at h
        | some fs1 =>
          rw [hmv] at h
          simp only at h
          have hsub1 : fs1.lookup (root ++ [lang]) = some sub := by
            unfold moveSync at hmv
            rw [List.dropLast_concat] at hmv
            cases hmk : fs.applyMkdir (backupPath root) with
            | none => rw [hmk] at hmv; simp at hmv
            | some fsm =>
              rw [hmk] at hmv
              simp only [Option.bind_eq_bind, Option.some_bind] at hmv
              have hd1 : PathsDisj (backupPath root) (root ++ [lang]) := by
                have hlangosb : lang ≠ "_old_structure_backup" :=
                  fun he => hosb (he ▸ List.mem_cons_of_mem _ htl)
                have := pathsDisj_sibling (b := root) (u := []) (v := [])
                  (x := "_old_structure_backup") (y := lang) (Ne.symm hlangosb)
                simpa [backupPath] using this
              have hd2 : PathsDisj (root ++ [l0]) (root ++ [lang]) :=
                pathsDisj_sibling (b := root) (u := []) (v := []) hl0lang
              have hd3 : PathsDisj (backupPath root ++ [l0]) (root ++ [lang]) := by
                have hlangosb : lang ≠ "_old_structure_backup" :=
                  fun he => hosb (he ▸ List.mem_cons_of_mem _ htl)
                have := pathsDisj_sibling (b := root) (u := [l0]) (v := [])
                  (x := "_old_structure_backup") (y := lang) (Ne.symm hlangosb)
                simpa [backupPath] using this
              rw [FS.lookup_renamePath_disj hmv hd2 hd3,
                FS.lookup_applyMkdir_disj hmk hd1, hsub]
          exact ih h (List.nodup_cons.mp hnd).2
            (fun he => hosb (List.mem_cons_of_mem _ he)) htl hsub1 rest
      · exact ih h (List.nodup_cons.mp hnd).2
          (fun he => hosb (List.mem_cons_of_mem _ he)) htl hsub rest

/-- Once an item directory with content sits at the content root, the
remaining promotions cannot disturb it: a second promotion onto the same
name would fail on the non-empty destination. -/
theorem promoteAll_after {root : FsPath} {slugs : List String} :
    ∀ {fs fs' : FS}, promoteAll root slugs fs = some fs' →
    ∀ {slug : String} {e : String × FS} {es : List (String × FS)},
      slug ≠ "_new_structure" →
      fs.lookup (root ++ [slug]) = some (.dir (e :: es)) →
      fs'.lookup (root ++ [slug]) = some (.dir (e :: es)) := by
  induction slugs with
  | nil =>
    intro fs fs' h slug e es _ hsub
    cases h
    exact hsub
  | cons s0 tl ih =>
    intro fs fs' h slug e es hns hsub
    rw [promoteAll] at h
    have hroot : (fs.lookup root).isSome :=
      FS.lookup_isSome_of_append (p := root) (q := [slug]) (by rw [hsub]; rfl)
    by_cases hs0 : s0 = slug
    · subst hs0
      rw [moveSync_dest_nonempty hsub hroot] at h
      simp at h
    · cases hmv : moveSync fs (tempPath root ++ [s0]) (root ++ [s0]) with
      | none => rw [hmv] at h; simp at h
      | some fs1 =>
        rw [hmv] at h
        simp only at h
        have hsub1 : fs1.lookup (root ++ [slug]) = some (.dir (e :: es)) := by
          unfold moveSync at hmv
          rw [List.dropLast_concat] at hmv
          rw [FS.applyMkdir_of_isSome hroot] at hmv
          simp only [Option.bind_eq_bind, Option.some_bind] at hmv
          have hd1 : PathsDisj (tempPath root ++ [s0]) (root ++ [slug]) := by
            have := pathsDisj_sibling (b := root) (u := [s0]) (v := [])
              (x := "_new_structure") (y := slug) (Ne.symm hns)
            simpa [tempPath] using this
          have hd2 : PathsDisj (root ++ [s0]) (root ++ [slug]) :=
            pathsDisj_sibling (b := root) (u := []) (v := []) hs0
          rw [FS.lookup_renamePath_disj hmv hd1 hd2, hsub]
        exact ih h hns hsub1

/-- Promotion relocates each staged item directory, with its subtree
intact, into the content root. -/
theorem promoteAll_keeps {root : FsPath} {slugs : List String} :
    ∀ {fs fs' : FS}, promoteAll root slugs fs = some fs' →
    ∀ {slug : String} {e : String × FS} {es : List (String × FS)},
      slug ∈ slugs → slug ≠ "_new_structure" →
      fs.lookup (tempPath root ++ [slug]) = some (.dir (e :: es)) →
      fs'.lookup (root ++ [slug]) = some (.dir (e :: es)) := by
  induction slugs with
  | nil =>
    intro fs fs' _ slug e es hmem
    simp at hmem
  | cons s0 tl ih =>
    intro fs fs' h slug e es hmem hns hsub
    rw [promoteAll] at h
    obtain ⟨ES, hES, hcgES⟩ := lookup_parent_dir hsub
    have htemp_ne : ES ≠ [] := childGet_ne_nil hcgES
    have hroot : (fs.lookup root).isSome := by
      refine FS.lookup_isSome_of_append (p := root) (q := ["_new_structure"]) ?_
      have : root ++ ["_new_structure"] = tempPath root := rfl
      rw [this, hES]
      rfl
    by_cases hs0 : s0 = slug
    · subst hs0
      cases hmv : moveSync fs (tempPath root ++ [s0]) (root ++ [s0]) with
      | none => rw [hmv] at h; simp at h
      | some fs1 =>
        rw [hmv] at h
        simp only at h
        unfold moveSync at hmv
        rw [List.dropLast_concat] at hmv
        rw [FS.applyMkdir_of_isSome hroot] at hmv
        simp only [Option.bind_eq_bind, Option.some_bind] at hmv
        have hdst := FS.renamePath_lookup_dest hmv hsub []
        rw [List.append_nil, FS.lookup_nil] at hdst
        exact promoteAll_after h hns hdst
    · by_cases hs0ns : s0 = "_new_structure"
      · subst hs0ns
        obtain ⟨E0, ES0⟩ := List.exists_cons_of_ne_nil htemp_ne
        obtain ⟨ES0', hES0⟩ := ES0
        rw [hES0] at hES
        rw [moveSync_dest_nonempty (b := root) (x := "_new_structure") hES hroot] at h
        simp at h
      · cases hmv : moveSync fs (tempPath root ++ [s0]) (root ++ [s0]) with
        | none => rw [hmv] at h; simp at h
        | some fs1 =>
          rw [hmv] at h
          simp only at h
          have hsub1 : fs1.lookup (tempPath root ++ [slug]) = some (.dir (e :: es)) := by
            unfold moveSync at hmv
            rw [List.dropLast_concat] at hmv
            rw [FS.applyMkdir_of_isSome hroot] at hmv
            simp only [Option.bind_eq_bind, Option.some_bind] at hmv
            have hd1 : PathsDisj (tempPath root ++ [s0]) (tempPath root ++ [slug]) :=
              pathsDisj_sibling (b := tempPath root) (u := []) (v := []) hs0
            have hd2 : PathsDisj (root ++ [s0]) (tempPath root ++ [slug]) := by
              have := pathsDisj_sibling (b := root) (u := []) (v := [slug])
                (x := s0) (y := "_new_structure") hs0ns
              simpa [tempPath] using this
            rw [FS.lookup_renamePath_disj hmv hd1 hd2, hsub]
          exact ih h ((List.mem_cons.mp hmem).resolve_left
            fun he => hs0 he.symm) hns hsub1

/-- Promotion does not disturb the backup directory: a staged entry named
like the backup directory would fail to promote onto it. -/
theorem promoteAll_keeps_backup {root : FsPath} {slugs : List String} :
    ∀ {fs fs' : FS}, promoteAll root slugs fs = some fs' →
    ∀ {lang : String} {sub : FS},
      fs.lookup (backupPath root ++ [lang]) = some sub →
      ∀ rest, fs'.lookup (backupPath root ++ lang :: rest) =
        fs.lookup (backupPath root ++ lang :: rest) := by
  induction slugs with
  | nil =>
    intro fs fs' h lang sub _ rest
    cases h
    rfl
  | cons s0 tl ih =>
    intro fs fs' h lang sub hsub rest
    rw [promoteAll] at h
    obtain ⟨BES, hBES, hcgB⟩ := lookup_parent_dir hsub
    have hbk_ne : BES ≠ [] := childGet_ne_nil hcgB
    have hroot : (fs.lookup root).isSome := by
      refine FS.lookup_isSome_of_append (p := root) (q := ["_old_structure_backup"]) ?_
      have : root ++ ["_old_structure_backup"] = backupPath root := rfl
      rw [this, hBES]
      rfl
    by_cases hs0 : s0 = "_old_structure_backup"
    · subst hs0
      obtain ⟨B0, BES0⟩ := List.exists_cons_of_ne_nil hbk_ne
      obtain ⟨BES0', hBES0⟩ := BES0
      rw [hBES0] at hBES
      rw [moveSync_dest_nonempty (b := root) (x := "_old_structure_backup")
        hBES hroot] at h
      simp at h
    · cases hmv : moveSync fs (tempPath root ++ [s0]) (root ++ [s0]) with
      | none => rw [hmv] at h; simp at h
      | some fs1 =>
        rw [hmv] at h
        simp only at h
        unfold moveSync at hmv
        rw [List.dropLast_concat] at hmv
        rw [FS.applyMkdir_of_isSome hroot] at hmv
        simp only [Option.bind_eq_bind, Option.some_bind] at hmv
        have hd1 : PathsDisj (tempPath root ++ [s0])
            (backupPath root ++ lang :: rest) := by
          have : ("_new_structure" : String) ≠ "_old_structure_backup" := by decide
          have hthis := pathsDisj_sibling (b := root) (u := [s0])
            (v := lang :: rest) (x := "_new_structure")
            (y := "_old_structure_backup") this
          simpa [tempPath, backupPath] using hthis
        have hd2 : PathsDisj (root ++ [s0]) (backupPath root ++ lang :: rest) := by
          have hthis := pathsDisj_sibling (b := root) (u := [])
            (v := lang :: rest) (x := s0) (y := "_old_structure_backup") hs0
          simpa [backupPath] using hthis
        have hkeep : fs1.lookup (backupPath root ++ lang :: rest) =
            fs.lookup (backupPath root ++ lang :: rest) :=
          FS.lookup_renamePath_disj hmv hd1 hd2
        have hd1' : PathsDisj (tempPath root ++ [s0])
            (backupPath root ++ [lang]) := by
          have : ("_new_structure" : String) ≠ "_old_structure_backup" := by decide
          have hthis := pathsDisj_sibling (b := root) (u := [s0])
            (v := [lang]) (x := "_new_structure")
            (y := "_old_structure_backup") this
          simpa [tempPath, backupPath] using hthis
        have hd2' : PathsDisj (root ++ [s0]) (backupPath root ++ [lang]) := by
          have hthis := pathsDisj_sibling (b := root) (u := [])
            (v := [lang]) (x := s0) (y := "_old_structure_backup") hs0
          simpa [backupPath] using hthis
        have hsub1 : fs1.lookup (backupPath root ++ [lang]) = some sub := by
          rw [FS.lookup_renamePath_disj hmv hd1' hd2', hsub]
        rw [ih h hsub1 rest, hkeep]

/-!
## Infrastructure: the staged state
-/

theorem append_md_inj {a b : String} (h : a ++ ".md" = b ++ ".md") : a = b := by
  apply String.ext
  have hd := congrArg String.data h
  rw [String.data_append, String.data_append] at hd
  exact List.append_cancel_right hd

theorem path_pair (b : FsPath) (x y : String) : b ++ [x, y] = (b ++ [x]) ++ [y] := by
  simp

theorem stageItemOps_false (root : FsPath) (slug : String) (lvs : LangVersions) :
    stageItemOps false root slug lvs =
      [FsOp.mkdir (tempPath root ++ [slug])] ++
        (lvs.flatMap fun e =>
          [FsOp.write (tempPath root ++ [slug, e.1 ++ ".md"]) e.2.content]) ++
        mediaCopyOps false (tempPath root ++ [slug]) (allMedia lvs) [] := by
  simp [stageItemOps]

theorem stagingOps_false (root : FsPath) (items : Items) :
    stagingOps false root items =
      FsOp.mkdir (tempPath root) ::
        items.flatMap fun e => stageItemOps false root e.1 e.2 := by
  simp [stagingOps]

theorem mem_allMedia {lvs : LangVersions} {pr : String × FsPath}
    (h : pr ∈ allMedia lvs) :
    ∃ e ∈ lvs, pr.1 ∈ e.2.files ∧ pr.2 = e.2.sourcePath ++ [pr.1] := by
  obtain ⟨e, he, hpr⟩ := List.mem_flatMap.mp h
  obtain ⟨f, hf, hfe⟩ := List.mem_map.mp hpr
  refine ⟨e, he, ?_, ?_⟩
  · rw [← hfe]
    exact hf
  · rw [← hfe]

/-- The document writes of one item leave a staged document of a language
not among them unchanged. -/
theorem writes_keep {root : FsPath} {slug lang : String} :
    ∀ {lvs : LangVersions} {fs fs' : FS} {v : FS},
      applyOps (lvs.flatMap fun e =>
        [FsOp.write (tempPath root ++ [slug, e.1 ++ ".md"]) e.2.content]) fs = some fs' →
      (∀ e ∈ lvs, e.1 ≠ lang) →
      fs.lookup (tempPath root ++ [slug, lang ++ ".md"]) = some v →
      fs'.lookup (tempPath root ++ [slug, lang ++ ".md"]) = some v := by
  intro lvs
  induction lvs with
  | nil =>
    intro fs fs' v h _ hv
    cases h
    exact hv
  | cons e rest ih =>
    intro fs fs' v h hne hv
    rw [List.flatMap_cons, List.cons_append, List.nil_append, applyOps_cons_bind] at h
    cases hw : applyOp fs (.write (tempPath root ++ [slug, e.1 ++ ".md"]) e.2.content) with
    | none => rw [hw] at h; simp at h
    | some fs1 =>
      rw [hw] at h
      simp only [Option.some_bind] at h
      have hne1 : e.1 ++ ".md" ≠ lang ++ ".md" := fun he =>
        hne e (List.mem_cons_self _ _) (append_md_inj he)
      have hv1 : fs1.lookup (tempPath root ++ [slug, lang ++ ".md"]) = some v := by
        have hd : PathsDisj (tempPath root ++ [slug, e.1 ++ ".md"])
            (tempPath root ++ [slug, lang ++ ".md"]) := by
          rw [path_pair, path_pair]
          exact pathsDisj_sibling (b := tempPath root ++ [slug]) (u := []) (v := []) hne1
        rw [lookup_applyOp_disj hw
          (by intro tgt htgt
              simp only [FsOp.touches, List.mem_singleton] at htgt
              subst htgt
              exact hd), hv]
      exact ih h (fun e' he' => hne e' (List.mem_cons_of_mem _ he')) hv1

/-- The document writes of one item stage each language version's bytes. -/
theorem writes_value {root : FsPath} {slug : String} :
    ∀ {lvs : LangVersions} {fs fs' : FS},
      applyOps (lvs.flatMap fun e =>
        [FsOp.write (tempPath root ++ [slug, e.1 ++ ".md"]) e.2.content]) fs = some fs' →
      ∀ {lang : String} {d : LangData}, (lang, d) ∈ lvs →
      (lvs.map Prod.fst).Nodup →
      fs'.lookup (tempPath root ++ [slug, lang ++ ".md"]) = some (.file d.content) := by
  intro lvs
  induction lvs with
  | nil =>
    intro fs fs' _ lang d hmem
    simp at hmem
  | cons e rest ih =>
    intro fs fs' h lang d hmem hnd
    rw [List.flatMap_cons, List.cons_append, List.nil_append, applyOps_cons_bind] at h
    cases hw : applyOp fs (.write (tempPath root ++ [slug, e.1 ++ ".md"]) e.2.content) with
    | none => rw [hw] at h; simp at h
    | some fs1 =>
      rw [hw] at h
      simp only [Option.some_bind] at h
      have hnd' : (e.1 :: rest.map Prod.fst).Nodup := by
        rw [List.map_cons] at hnd
        exact hnd
      have hnotin := (List.nodup_cons.mp hnd').1
      have hrest := (List.nodup_cons.mp hnd').2
      rcases List.mem_cons.mp hmem with heq | htl
      · have he1 : e.1 = lang := by rw [← heq]
        have hed : e.2 = d := by rw [← heq]
        have hv1 : fs1.lookup (tempPath root ++ [slug, lang ++ ".md"]) =
            some (.file d.content) := by
          rw [← he1, ← hed]
          exact FS.writeFile_lookup_self hw
        refine writes_keep h ?_ hv1
        intro e' he' hee
        apply hnotin
        rw [he1, ← hee]
        exact List.mem_map_of_mem _ he'
      · exact ih h htl hrest

/-- After one item's staging ops, each staged language document holds the
collected bytes of that language version (provided no media file of the
item shadows it). -/
theorem stageItem_doc {root : FsPath} {slug : String} {lvs : LangVersions}
    {fs fsI : FS} (h : applyOps (stageItemOps false root slug lvs) fs = some fsI)
    {lang : String} {d : LangData} (hld : (lang, d) ∈ lvs)
    (hnodup : (lvs.map Prod.fst).Nodup)
    (hmedia : ∀ e ∈ lvs, ∀ f ∈ e.2.files, f ≠ lang ++ ".md") :
    fsI.lookup (tempPath root ++ [slug, lang ++ ".md"]) = some (.file d.content) := by
  rw [stageItemOps_false, applyOps_append_bind] at h
  cases hAW : applyOps ([FsOp.mkdir (tempPath root ++ [slug])] ++
      (lvs.flatMap fun e =>
        [FsOp.write (tempPath root ++ [slug, e.1 ++ ".md"]) e.2.content])) fs with
  | none => rw [hAW] at h; simp at h
  | some fsAW =>
    rw [hAW] at h
    simp only [Option.some_bind] at h
    rw [applyOps_append_bind] at hAW
    cases hA : applyOps [FsOp.mkdir (tempPath root ++ [slug])] fs with
    | none => rw [hA] at hAW; simp at hAW
    | some fsA =>
      rw [hA] at hAW
      simp only [Option.some_bind] at hAW
      have hW : fsAW.lookup (tempPath root ++ [slug, lang ++ ".md"]) =
          some (.file d.content) := writes_value hAW hld hnodup
      rw [path_pair] at hW ⊢
      refine mediaOps_preserve h (Or.inr ?_) hW
      intro pr hpr
      obtain ⟨e, he, hf, _⟩ := mem_allMedia hpr
      exact hmedia e he pr.1 hf

/-- After one item's staging ops, each staged media file holds the bytes of
the first source carrying its name, read as the item's staging began. -/
theorem stageItem_media {root : FsPath} {slug : String} {lvs : LangVersions}
    {fs fsI : FS} (h : applyOps (stageItemOps false root slug lvs) fs = some fsI)
    {n : String} {pr : String × FsPath}
    (hfind : (allMedia lvs).find? (fun e => e.1 = n) = some pr)
    (hdisj : ∀ e ∈ allMedia lvs, PathsDisj e.2 (tempPath root)) :
    ∃ c, fs.lookup pr.2 = some (.file c) ∧
      fsI.lookup (tempPath root ++ [slug, n]) = some (.file c) := by
  rw [stageItemOps_false, applyOps_append_bind] at h
  cases hAW : applyOps ([FsOp.mkdir (tempPath root ++ [slug])] ++
      (lvs.flatMap fun e =>
        [FsOp.write (tempPath root ++ [slug, e.1 ++ ".md"]) e.2.content])) fs with
  | none => rw [hAW] at h; simp at h
  | some fsAW =>
    rw [hAW] at h
    simp only [Option.some_bind] at h
    have hdisj' : ∀ e ∈ allMedia lvs, PathsDisj e.2 (tempPath root ++ [slug]) := by
      intro e he
      have hd := hdisj e he
      exact pathsDisj_symm (pathsDisj_of_under hd.2 hd.1 (List.prefix_append _ _))
    obtain ⟨c, hc1, hc2⟩ := mediaOps_value (n := n) h (by simp) hfind hdisj'
    refine ⟨c, ?_, by rw [path_pair]; exact hc2⟩
    rw [← hc1]
    symm
    refine lookup_applyOps_disj hAW ?_
    intro op hop tgt htgt
    have hopitem : op ∈ stageItemOps false root slug lvs := by
      rw [stageItemOps_false]
      exact List.mem_append_left _ hop
    have ht := stageItemOps_touches root slug lvs op hopitem tgt htgt
    have hdsrc := hdisj pr (List.mem_of_find?_eq_some hfind)
    exact pathsDisj_of_under hdsrc.2 hdsrc.1 ((List.prefix_append _ _).trans ht)

/-- Staging other items does not disturb one item's staged subtree. -/
theorem stageOther_keeps {root : FsPath} {sub : Items} {fs fs' : FS}
    (h : applyOps (sub.flatMap fun e => stageItemOps false root e.1 e.2) fs = some fs')
    {slug : String} (hne : ∀ e ∈ sub, e.1 ≠ slug) (x : FsPath) :
    fs'.lookup (tempPath root ++ slug :: x) = fs.lookup (tempPath root ++ slug :: x) := by
  refine lookup_applyOps_disj h ?_
  intro op hop tgt htgt
  obtain ⟨e, he, hope⟩ := List.mem_flatMap.mp hop
  have ht := stageItemOps_touches root e.1 e.2 op hope tgt htgt
  have hbase : PathsDisj (tempPath root ++ [e.1]) (tempPath root ++ slug :: x) :=
    pathsDisj_sibling (b := tempPath root) (u := []) (v := x) (hne e he)
  exact pathsDisj_of_under hbase.1 hbase.2 ht

/-- Any part of the staging phase preserves paths disjoint from the
staging area. -/
theorem stagingPart_keeps {root : FsPath} {items : Items} {ops : List FsOp}
    (hsub : ∀ op ∈ ops, op ∈ stagingOps false root items) {fs fs' : FS}
    (h : applyOps ops fs = some fs') {q : FsPath}
    (hdq : PathsDisj q (tempPath root)) : fs'.lookup q = fs.lookup q := by
  refine lookup_applyOps_disj h ?_
  intro op hop tgt htgt
  have ht := stagingOps_touches root items op (hsub op hop) tgt htgt
  exact pathsDisj_of_under hdq.2 hdq.1 ht

/-- After the whole staging phase, every language document of every item is
staged with its collected bytes. -/
theorem staging_doc {root : FsPath} {items : Items} {fs₀ fs₁ : FS}
    (h : applyOps (stagingOps false root items) fs₀ = some fs₁)
    (hkeys : (items.map Prod.fst).Nodup)
    {slug : String} {lvs : LangVersions} (hmem : (slug, lvs) ∈ items)
    {lang : String} {d : LangData} (hld : (lang, d) ∈ lvs)
    (hnodup : (lvs.map Prod.fst).Nodup)
    (hmedia : ∀ e ∈ lvs, ∀ f ∈ e.2.files, f ≠ lang ++ ".md") :
    fs₁.lookup (tempPath root ++ [slug, lang ++ ".md"]) = some (.file d.content) := by
  obtain ⟨pre, post, hsplit⟩ := List.append_of_mem hmem
  subst hsplit
  rw [stagingOps_false, applyOps_cons_bind] at h
  cases hmk : applyOp fs₀ (.mkdir (tempPath root)) with
  | none => rw [hmk] at h; simp at h
  | some fsm =>
    rw [hmk] at h
    simp only [Option.some_bind] at h
    rw [List.flatMap_append, List.flatMap_cons, applyOps_append_bind] at h
    cases hpre : applyOps (pre.flatMap fun e => stageItemOps false root e.1 e.2) fsm with
    | none => rw [hpre] at h; simp at h
    | some fsB =>
      rw [hpre] at h
      simp only [Option.some_bind, applyOps_append_bind] at h
      cases hitem : applyOps (stageItemOps false root slug lvs) fsB with
      | none => rw [hitem] at h; simp at h
      | some fsI =>
        rw [hitem] at h
        simp only [Option.some_bind] at h
        have hI := stageItem_doc hitem hld hnodup hmedia
        have hkeys' : slug ∉ post.map Prod.fst := by
          have : (pre ++ (slug, lvs) :: post).map Prod.fst =
              pre.map Prod.fst ++ slug :: post.map Prod.fst := by simp
          rw [this] at hkeys
          exact (List.nodup_cons.mp hkeys.of_append_right).1
        have hne : ∀ e ∈ post, e.1 ≠ slug :=
          fun e he hee => hkeys' (hee ▸ List.mem_map_of_mem _ he)
        have hpost := stageOther_keeps h hne [lang ++ ".md"]
        rw [show tempPath root ++ [slug, lang ++ ".md"] =
          tempPath root ++ slug :: [lang ++ ".md"] from rfl] at hI ⊢
        rw [hpost, hI]

/-- After the whole staging phase, every media name of every item is staged
with the bytes of the first source carrying it in language-enumeration
order, read from the original tree. -/
theorem staging_media {root : FsPath} {items : Items} {fs₀ fs₁ : FS}
    (h : applyOps (stagingOps false root items) fs₀ = some fs₁)
    (hkeys : (items.map Prod.fst).Nodup)
    {slug : String} {lvs : LangVersions} (hmem : (slug, lvs) ∈ items)
    {n : String} {pr : String × FsPath}
    (hfind : (allMedia lvs).find? (fun e => e.1 = n) = some pr)
    (hdisj : ∀ e ∈ allMedia lvs, PathsDisj e.2 (tempPath root)) :
    ∃ c, fs₀.lookup pr.2 = some (.file c) ∧
      fs₁.lookup (tempPath root ++ [slug, n]) = some (.file c) := by
  obtain ⟨pre, post, hsplit⟩ := List.append_of_mem hmem
  subst hsplit
  have hpr_disj := hdisj pr (List.mem_of_find?_eq_some hfind)
  rw [stagingOps_false, applyOps_cons_bind] at h
  cases hmk : applyOp fs₀ (.mkdir (tempPath root)) with
  | none => rw [hmk] at h; simp at h
  | some fsm =>
    rw [hmk] at h
    simp only [Option.some_bind] at h
    rw [List.flatMap_append, List.flatMap_cons, applyOps_append_bind] at h
    cases hpre : applyOps (pre.flatMap fun e => stageItemOps false root e.1 e.2) fsm with
    | none => rw [hpre] at h; simp at h
    | some fsB =>
      rw [hpre] at h
      simp only [Option.some_bind, applyOps_append_bind] at h
      cases hitem : applyOps (stageItemOps false root slug lvs) fsB with
      | none => rw [hitem] at h; simp at h
      | some fsI =>
        rw [hitem] at h
        simp only [Option.some_bind] at h
        obtain ⟨c, hc1, hc2⟩ := stageItem_media hitem hfind hdisj
        have hpreB : fsB.lookup pr.2 = fs₀.lookup pr.2 := by
          have h1 : fsm.lookup pr.2 = fs₀.lookup pr.2 := lookup_applyOp_disj hmk
            (by intro tgt htgt
                simp only [FsOp.touches, List.mem_singleton] at htgt
                subst htgt
                exact pathsDisj_symm hpr_disj)
          have h2 : fsB.lookup pr.2 = fsm.lookup pr.2 := by
            refine lookup_applyOps_disj hpre ?_
            intro op hop tgt htgt
            obtain ⟨e, he, hope⟩ := List.mem_flatMap.mp hop
            have ht := (List.prefix_append _ _).trans
              (stageItemOps_touches root e.1 e.2 op hope tgt htgt)
            exact pathsDisj_of_under hpr_disj.2 hpr_disj.1 ht
          rw [h2, h1]
        have hkeys' : slug ∉ post.map Prod.fst := by
          have : (pre ++ (slug, lvs) :: post).map Prod.fst =
              pre.map Prod.fst ++ slug :: post.map Prod.fst := by simp
          rw [this] at hkeys
          exact (List.nodup_cons.mp hkeys.of_append_right).1
        have hne : ∀ e ∈ post, e.1 ≠ slug :=
          fun e he hee => hkeys' (hee ▸ List.mem_map_of_mem _ he)
        have hpost := stageOther_keeps h hne [n]
        refine ⟨c, by rw [← hpreB]; exact hc1, ?_⟩
        rw [show tempPath root ++ [slug, n] = tempPath root ++ slug :: [n] from rfl] at hc2 ⊢
        rw [hpost, hc2]

theorem lookup_dir_single (es : List (String × FS)) (x : String) :
    (FS.dir es).lookup [x] = FS.childGet es x := by
  cases h : FS.childGet es x <;> simp [FS.lookup, h, FS.lookup_nil]

/-- The three standing disjointness facts about a staged path
`{temp}/{slug}/…` during the destructive phase. -/
theorem temp_path_disj {root : FsPath} {l : String} (hl : l ≠ "_new_structure")
    (x : FsPath) : PathsDisj (root ++ [l]) (tempPath root ++ x) := by
  have := pathsDisj_sibling (b := root) (u := []) (v := x)
    (x := l) (y := "_new_structure") hl
  simpa [tempPath] using this

theorem backup_path_disj_temp {root : FsPath} (u x : FsPath) :
    PathsDisj (backupPath root ++ u) (tempPath root ++ x) := by
  have hne : ("_old_structure_backup" : String) ≠ "_new_structure" := by decide
  have := pathsDisj_sibling (b := root) (u := u) (v := x)
    (x := "_old_structure_backup") (y := "_new_structure") hne
  simpa [tempPath, backupPath] using this

/-- After a successful live `migrate`, every collected language document of
every item sits at `{root}/{slug}/{lang}.md` with its collected bytes. -/
theorem migrate_live_doc {root : FsPath} {L : List String} {items : Items}
    {fs₀ fs' : FS} (h : migrate false root L items fs₀ = some fs')
    (hkeys : (items.map Prod.fst).Nodup) (hnsL : "_new_structure" ∉ L)
    {slug : String} {lvs : LangVersions} (hmem : (slug, lvs) ∈ items)
    (hslug : slug ≠ "_new_structure")
    {lang : String} {d : LangData} (hld : (lang, d) ∈ lvs)
    (hnodup : (lvs.map Prod.fst).Nodup)
    (hmedia : ∀ e ∈ lvs, ∀ f ∈ e.2.files, f ≠ lang ++ ".md") :
    fs'.lookup (root ++ [slug, lang ++ ".md"]) = some (.file d.content) := by
  obtain ⟨fs₁, fs₂, slugs, fs₃, h1, h2, h3, h4, h5⟩ := migrate_live_parts h
  have hstage := staging_doc h1 hkeys hmem hld hnodup hmedia
  have hbk : fs₂.lookup (tempPath root ++ [slug, lang ++ ".md"]) =
      fs₁.lookup (tempPath root ++ [slug, lang ++ ".md"]) := by
    refine backupLangs_keeps h2 ?_
      (by simpa using @backup_path_disj_temp root [] [slug, lang ++ ".md"])
    intro l hl
    exact ⟨temp_path_disj (fun he => hnsL (he ▸ hl)) _, backup_path_disj_temp [l] _⟩
  rw [hstage] at hbk
  rw [path_pair] at hbk
  obtain ⟨es, hes, hcg⟩ := lookup_parent_dir hbk
  obtain ⟨e0, es0, hes0⟩ := List.exists_cons_of_ne_nil (childGet_ne_nil hcg)
  rw [hes0] at hes hcg
  have hmemslug : slug ∈ slugs := mem_readdirDirs h3 hes
  have hprom := promoteAll_keeps h4 hmemslug hslug hes
  have hfs3 : fs₃.lookup (root ++ [slug, lang ++ ".md"]) =
      some (.file d.content) := by
    rw [path_pair, lookup_append_some hprom, lookup_dir_single, hcg]
  have hrm : fs'.lookup (root ++ [slug, lang ++ ".md"]) =
      fs₃.lookup (root ++ [slug, lang ++ ".md"]) := by
    refine FS.lookup_applyRemove_disj h5 ?_
    have := pathsDisj_sibling (b := root) (u := []) (v := [lang ++ ".md"])
      (x := "_new_structure") (y := slug) (Ne.symm hslug)
    simpa [tempPath] using this
  rw [hrm, hfs3]

/-- After a successful live `migrate`, every media name of every item sits
at `{root}/{slug}/{name}` with the bytes of the first source carrying that
name in language-enumeration order, byte-identical to the original tree. -/
theorem migrate_live_media {root : FsPath} {L : List String} {items : Items}
    {fs₀ fs' : FS} (h : migrate false root L items fs₀ = some fs')
    (hkeys : (items.map Prod.fst).Nodup) (hnsL : "_new_structure" ∉ L)
    {slug : String} {lvs : LangVersions} (hmem : (slug, lvs) ∈ items)
    (hslug : slug ≠ "_new_structure")
    {n : String} {pr : String × FsPath}
    (hfind : (allMedia lvs).find? (fun e => e.1 = n) = some pr)
    (hdisj : ∀ e ∈ allMedia lvs, PathsDisj e.2 (tempPath root)) :
    ∃ c, fs₀.lookup pr.2 = some (.file c) ∧
      fs'.lookup (root ++ [slug, n]) = some (.file c) := by
  obtain ⟨fs₁, fs₂, slugs, fs₃, h1, h2, h3, h4, h5⟩ := migrate_live_parts h
  obtain ⟨c, hc1, hc2⟩ := staging_media h1 hkeys hmem hfind hdisj
  have hbk : fs₂.lookup (tempPath root ++ [slug, n]) =
      fs₁.lookup (tempPath root ++ [slug, n]) := by
    refine backupLangs_keeps h2 ?_
      (by simpa using @backup_path_disj_temp root [] [slug, n])
    intro l hl
    exact ⟨temp_path_disj (fun he => hnsL (he ▸ hl)) _, backup_path_disj_temp [l] _⟩
  rw [hc2] at hbk
  rw [path_pair] at hbk
  obtain ⟨es, hes, hcg⟩ := lookup_parent_dir hbk
  obtain ⟨e0, es0, hes0⟩ := List.exists_cons_of_ne_nil (childGet_ne_nil hcg)
  rw [hes0] at hes hcg
  have hmemslug : slug ∈ slugs := mem_readdirDirs h3 hes
  have hprom := promoteAll_keeps h4 hmemslug hslug hes
  have hfs3 : fs₃.lookup (root ++ [slug, n]) = some (.file c) := by
    rw [path_pair, lookup_append_some hprom, lookup_dir_single, hcg]
  have hrm : fs'.lookup (root ++ [slug, n]) = fs₃.lookup (root ++ [slug, n]) := by
    refine FS.lookup_applyRemove_disj h5 ?_
    have := pathsDisj_sibling (b := root) (u := []) (v := [n])
      (x := "_new_structure") (y := slug) (Ne.symm hslug)
    simpa [tempPath] using this
  exact ⟨c, hc1, by rw [hrm, hfs3]⟩

/-- After a successful live `migrate`, the backup directory holds every
original language folder, with its entire subtree byte-identical. -/
theorem migrate_live_backup {root : FsPath} {L : List String} {items : Items}
    {fs₀ fs' : FS} (h : migrate false root L items fs₀ = some fs')
    (hL : L.Nodup) (hnsL : "_new_structure" ∉ L)
    (hosb : "_old_structure_backup" ∉ L)
    {lang : String} (hlang : lang ∈ L) {sub : FS}
    (hsub : fs₀.lookup (root ++ [lang]) = some sub) :
    ∀ rest, fs'.lookup (backupPath root ++ lang :: rest) = sub.lookup rest := by
  obtain ⟨fs₁, fs₂, slugs, fs₃, h1, h2, h3, h4, h5⟩ := migrate_live_parts h
  intro rest
  have hlns : lang ≠ "_new_structure" := fun he => hnsL (he ▸ hlang)
  have hstage : fs₁.lookup (root ++ [lang]) = some sub := by
    have hd : PathsDisj (root ++ [lang]) (tempPath root) := by
      have := pathsDisj_sibling (b := root) (u := []) (v := [])
        (x := lang) (y := "_new_structure") hlns
      simpa [tempPath] using this
    rw [staging_localized List.prefix_rfl h1 hd.2 hd.1, hsub]
  have hmv := backupLangs_moves h2 hL hosb hlang hstage rest
  have hmv0 := backupLangs_moves h2 hL hosb hlang hstage []
  rw [FS.lookup_nil] at hmv0
  have hprom := promoteAll_keeps_backup h4 hmv0 rest
  have hrm : fs'.lookup (backupPath root ++ lang :: rest) =
      fs₃.lookup (backupPath root ++ lang :: rest) := by
    refine FS.lookup_applyRemove_disj h5 ?_
    have := pathsDisj_symm (@backup_path_disj_temp root (lang :: rest) [])
    simpa using this
  rw [hrm, hprom, hmv]

/-!
## Infrastructure: the collector
-/

theorem mem_updOrAppend {β : Type} {l : List (String × β)} {k : String} {v : β}
    {p : String × β} (h : p ∈ updOrAppend l k v) : p = (k, v) ∨ p ∈ l := by
  induction l with
  | nil => simpa [updOrAppend] using h
  | cons e rest ih =>
    obtain ⟨k', v'⟩ := e
    by_cases hk : k' = k
    · rw [updOrAppend, if_pos hk] at h
      rcases List.mem_cons.mp h with heq | htl
      · exact Or.inl heq
      · exact Or.inr (List.mem_cons_of_mem _ htl)
    · rw [updOrAppend, if_neg hk] at h
      rcases List.mem_cons.mp h with heq | htl
      · exact Or.inr (heq ▸ List.mem_cons_self _ _)
      · rcases ih htl with h' | h'
        · exact Or.inl h'
        · exact Or.inr (List.mem_cons_of_mem _ h')

theorem listGet_mem {β : Type} {l : List (String × β)} {k : String} {v : β}
    (h : listGet l k = some v) : (k, v) ∈ l := by
  unfold listGet at h
  cases hf : l.find? (fun p => p.1 = k) with
  | none => rw [hf] at h; simp at h
  | some pr =>
    rw [hf] at h
    injection h with h
    have hmem := List.mem_of_find?_eq_some hf
    have hk := List.find?_some hf
    simp only [decide_eq_true_eq] at hk
    have : (k, v) = pr := by
      cases pr
      simp only [Prod.mk.injEq]
      exact ⟨hk.symm, h.symm⟩
    rw [this]
    exact hmem

theorem mem_itemsInsert {items : Items} {slug lang : String} {d : LangData}
    {s' : String} {vs' : LangVersions}
    (h : (s', vs') ∈ itemsInsert items slug lang d) :
    ∀ {l' : String} {d' : LangData}, (l', d') ∈ vs' →
      (s' = slug ∧ l' = lang ∧ d' = d) ∨
        ∃ vs₀, (s', vs₀) ∈ items ∧ (l', d') ∈ vs₀ := by
  intro l' d' hmem
  unfold itemsInsert at h
  rcases mem_updOrAppend h with heq | hin
  · have hs : s' = slug := congrArg Prod.fst heq
    have hvs : vs' = updOrAppend ((listGet items slug).getD []) lang d :=
      congrArg Prod.snd heq
    rw [hvs] at hmem
    rcases mem_updOrAppend hmem with heq' | hin'
    · exact Or.inl ⟨hs, congrArg Prod.fst heq', congrArg Prod.snd heq'⟩
    · cases hg : listGet items slug with
      | none => rw [hg] at hin'; simp at hin'
      | some cur =>
        rw [hg] at hin'
        exact Or.inr ⟨cur, hs ▸ listGet_mem hg, hin'⟩
  · exact Or.inr ⟨vs', hin, hmem⟩

/-- What the slug loop of the collector records: every entry either was in
the accumulator already or is a freshly read language version of the loop's
language, with its bytes and source location from the tree. -/
theorem collectSlugs_sound {root : FsPath} {lang : String} {fs : FS} :
    ∀ {slugsL : List String} {items₀ items : Items},
      collectSlugs root lang fs slugsL items₀ = some items →
      ∀ {slug : String} {lvs : LangVersions}, (slug, lvs) ∈ items →
      ∀ {l : String} {d : LangData}, (l, d) ∈ lvs →
      (∃ vs₀, (slug, vs₀) ∈ items₀ ∧ (l, d) ∈ vs₀) ∨
        (l = lang ∧ d.sourcePath = root ++ [lang, slug] ∧
          fs.lookup (root ++ [lang, slug, "index.md"]) = some (.file d.content)) := by
  intro slugsL
  induction slugsL with
  | nil =>
    intro items₀ items h slug lvs hmem l d hld
    cases h
    exact Or.inl ⟨lvs, hmem, hld⟩
  | cons s0 tl ih =>
    intro items₀ items h slug lvs hmem l d hld
    rw [collectSlugs] at h
    split at h
    · cases hrd : readdirNames fs (root ++ [lang, s0]) with
      | none => rw [hrd] at h; simp at h
      | some files =>
        rw [hrd] at h
        simp only at h
        cases hix : fs.lookup (root ++ [lang, s0, "index.md"]) with
        | none => rw [hix] at h; simp at h
        | some u =>
          rw [hix] at h
          cases u with
          | dir es => simp at h
          | file c =>
            simp only at h
            rcases ih h hmem hld with hin | hnew
            · obtain ⟨vs₀, hvs₀, hv⟩ := hin
              rcases mem_itemsInsert hvs₀ hv with ⟨hs, hl, hd⟩ | hold
              · subst hs
                subst hl
                subst hd
                exact Or.inr ⟨rfl, rfl, hix⟩
              · exact Or.inl hold
            · exact Or.inr hnew
    · rcases ih h hmem hld with hin | hnew
      · exact Or.inl hin
      · exact Or.inr hnew

/-- What the language loop of the collector records. -/
theorem collectGo_sound {root : FsPath} {fs : FS} :
    ∀ {L : List String} {items₀ items : Items},
      collectGo root fs L items₀ = some items →
      ∀ {slug : String} {lvs : LangVersions}, (slug, lvs) ∈ items →
      ∀ {l : String} {d : LangData}, (l, d) ∈ lvs →
      (∃ vs₀, (slug, vs₀) ∈ items₀ ∧ (l, d) ∈ vs₀) ∨
        (l ∈ L ∧ d.sourcePath = root ++ [l, slug] ∧
          fs.lookup (root ++ [l, slug, "index.md"]) = some (.file d.content)) := by
  intro L
  induction L with
  | nil =>
    intro items₀ items h slug lvs hmem l d hld
    cases h
    exact Or.inl ⟨lvs, hmem, hld⟩
  | cons l0 tl ih =>
    intro items₀ items h slug lvs hmem l d hld
    rw [collectGo] at h
    split at h
    · cases hrd : readdirDirs fs (root ++ [l0]) with
      | none => rw [hrd] at h; simp at h
      | some slugDirs =>
        rw [hrd] at h
        simp only at h
        cases hcs : collectSlugs root l0 fs slugDirs items₀ with
        | none => rw [hcs] at h; simp at h
        | some items₁ =>
          rw [hcs] at h
          simp only at h
          rcases ih h hmem hld with hin | hnew
          · obtain ⟨vs₀, hvs₀, hv⟩ := hin
            rcases collectSlugs_sound hcs hvs₀ hv with hin' | hnew'
            · exact Or.inl hin'
            · obtain ⟨hl0, hsp, hlk⟩ := hnew'
              subst hl0
              exact Or.inr ⟨List.mem_cons_self _ _, hsp, hlk⟩
          · exact Or.inr ⟨List.mem_cons_of_mem _ hnew.1, hnew.2.1, hnew.2.2⟩
    · rcases ih h hmem hld with hin | hnew
      · exact Or.inl hin
      · exact Or.inr ⟨List.mem_cons_of_mem _ hnew.1, hnew.2.1, hnew.2.2⟩

/-- Everything `collectProjects` records comes from the legacy tree: the
language is one of the detected languages, the source location is the
legacy slug folder, and the bytes are those of its `index.md`. -/
theorem collect_sound {root : FsPath} {L : List String} {fs : FS} {items : Items}
    (h : collectProjects root L fs = some items)
    {slug : String} {lvs : LangVersions} (hmem : (slug, lvs) ∈ items)
    {l : String} {d : LangData} (hld : (l, d) ∈ lvs) :
    l ∈ L ∧ d.sourcePath = root ++ [l, slug] ∧
      fs.lookup (root ++ [l, slug, "index.md"]) = some (.file d.content) := by
  rcases collectGo_sound h hmem hld with hin | hnew
  · obtain ⟨vs₀, hvs₀, _⟩ := hin
    simp at hvs₀
  · exact hnew

/-- One staging item emits exactly one copy operation onto each staged
media name it carries. -/
theorem stageItem_copy_count {root : FsPath} {slug : String} {lvs : LangVersions}
    {n : String} (hn : n ∈ (allMedia lvs).map Prod.fst) :
    (stageItemOps false root slug lvs).countP
      (fun op => isCopyTo (tempPath root ++ [slug, n]) op) = 1 := by
  rw [stageItemOps_false, List.countP_append, List.countP_append]
  have h1 : ([FsOp.mkdir (tempPath root ++ [slug])]).countP
      (fun op => isCopyTo (tempPath root ++ [slug, n]) op) = 0 := rfl
  have h2 : ((lvs.flatMap fun e =>
      [FsOp.write (tempPath root ++ [slug, e.1 ++ ".md"]) e.2.content])).countP
      (fun op => isCopyTo (tempPath root ++ [slug, n]) op) = 0 := by
    refine List.countP_eq_zero.mpr ?_
    intro op hop
    obtain ⟨e, _, hope⟩ := List.mem_flatMap.mp hop
    simp only [List.mem_singleton] at hope
    subst hope
    simp [isCopyTo]
  rw [h1, h2]
  have h3 := @mediaCopyOps_count (tempPath root ++ [slug]) n
    (allMedia lvs) [] (by simp)
  rw [if_pos hn] at h3
  rw [show tempPath root ++ [slug, n] = (tempPath root ++ [slug]) ++ [n] from path_pair _ _ _]
  rw [h3]

/-- C2: for every item and every media file name, the live staging loop
emits exactly one copy onto the staged file of that name (the dedup set
skips every later duplicate), and after a successful live migration the
migrated item directory holds that name with bytes read from the first
`{ file, source }` pair carrying it in language-enumeration order —
first-seen wins. -/
theorem claim_C2 {root : FsPath} {L : List String} {items : Items}
    {fs₀ fs' : FS} (hmig : migrate false root L items fs₀ = some fs')
    (hkeys : (items.map Prod.fst).Nodup) (hnsL : "_new_structure" ∉ L)
    {slug : String} {lvs : LangVersions} (hmem : (slug, lvs) ∈ items)
    (hslug : slug ≠ "_new_structure")
    {n : String} {pr : String × FsPath}
    (hfind : (allMedia lvs).find? (fun e => e.1 = n) = some pr)
    (hdisj : ∀ e ∈ allMedia lvs, PathsDisj e.2 (tempPath root)) :
    (stageItemOps false root slug lvs).countP
        (fun op => isCopyTo (tempPath root ++ [slug, n]) op) = 1 ∧
      ∃ c, fs₀.lookup pr.2 = some (.file c) ∧
        fs'.lookup (root ++ [slug, n]) = some (.file c) := by
  constructor
  · refine stageItem_copy_count ?_
    have hpr := List.mem_of_find?_eq_some hfind
    have hp1 : pr.1 = n := by simpa using List.find?_some hfind
    rw [← hp1]
    exact List.mem_map_of_mem _ hpr
  · exact migrate_live_media hmig hkeys hnsL hmem hslug hfind hdisj

/-- C2 instantiated: on `fsW`, the shared media name `diagram.png` of item
`p1` is staged by exactly one copy and ends up with the bytes of its first
source (the `en` folder's copy), even though `ru` also carries it. -/
theorem claim_C2_witness :
    ((collectProjects projectsDir ["en", "ru"] fsW).getD []).length = 2 ∧
    ∃ c, fsW.lookup (projectsDir ++ ["en", "p1", "diagram.png"]) = some (.file c) ∧
      ((migrate false projectsDir ["en", "ru"]
          ((collectProjects projectsDir ["en", "ru"] fsW).getD []) fsW).getD
          (.dir [])).lookup (projectsDir ++ ["p1", "diagram.png"]) =
        some (.file c) := by
  constructor
  · rfl
  · have hmig : migrate false projectsDir ["en", "ru"]
        ((collectProjects projectsDir ["en", "ru"] fsW).getD []) fsW =
        some ((migrate false projectsDir ["en", "ru"]
          ((collectProjects projectsDir ["en", "ru"] fsW).getD []) fsW).getD
          (.dir [])) := rfl
    have h := (@claim_C2 projectsDir ["en", "ru"]
      ((collectProjects projectsDir ["en", "ru"] fsW).getD []) fsW
      ((migrate false projectsDir ["en", "ru"]
        ((collectProjects projectsDir ["en", "ru"] fsW).getD []) fsW).getD (.dir []))
      hmig (by decide) (by decide) "p1"
      ((listGet ((collectProjects projectsDir ["en", "ru"] fsW).getD []) "p1").getD [])
      (by decide) (by decide) "diagram.png"
      ("diagram.png", projectsDir ++ ["en", "p1", "diagram.png"])
      (by rfl) (by decide)).2
    obtain ⟨c, hc1, hc2⟩ := h
    exact ⟨c, hc1, hc2⟩

/-- C3 counterexample: the claim as stated is false.  In the legacy tree
`fsBad` the item `p` carries a media file named `en.md`; the media-copy
loop runs after the document writes and overwrites the staged `en`
document, so after a successful live migration the migrated document
`{root}/p/en.md` holds the media bytes `MEDIA`, not the byte content
`DOC` of its legacy source `{root}/en/p/index.md`. -/
theorem claim_C3_counterexample :
    ((collectProjects projectsDir ["en"] fsBad).bind
        fun items => migrate false projectsDir ["en"] items fsBad).map
        (fun fs' => fs'.contentAt (projectsDir ++ ["p", "en.md"])) =
      some (some "MEDIA") ∧
    fsBad.contentAt (projectsDir ++ ["en", "p", "index.md"]) = some "DOC" ∧
    ("MEDIA" : String) ≠ "DOC" :=
  ⟨rfl, rfl, by decide⟩

/-- C3 (amended): after a successful live migration of collected items in
which no media file of an item carries a document name `{lang}.md` of that
item, the byte content of every migrated document `{root}/{slug}/{lang}.md`
equals the byte content of its legacy source `{root}/{lang}/{slug}/index.md`,
and the backup directory `{root}/_old_structure_backup/{lang}/…` holds the
original language folders — relocated with byte-identical subtrees, never
deleted. -/
theorem claim_C3 {L : List String} {items : Items} {fs₀ fs' : FS}
    (hcol : collectProjects projectsDir L fs₀ = some items)
    (hmig : migrate false projectsDir L items fs₀ = some fs')
    (hkeys : (items.map Prod.fst).Nodup)
    (hvs : ∀ e ∈ items, (e.2.map Prod.fst).Nodup)
    (hL : L.Nodup) (hns : "_new_structure" ∉ L)
    (hosb : "_old_structure_backup" ∉ L)
    (hslugs : ∀ e ∈ items, e.1 ≠ "_new_structure")
    (hmedia : ∀ e ∈ items, ∀ v ∈ e.2, ∀ f ∈ v.2.files, ∀ v' ∈ e.2,
      f ≠ v'.1 ++ ".md") :
    (∀ slug lvs lang d, (slug, lvs) ∈ items → (lang, d) ∈ lvs →
      fs'.lookup (projectsDir ++ [slug, lang ++ ".md"]) =
        fs₀.lookup (projectsDir ++ [lang, slug, "index.md"])) ∧
    (∀ lang ∈ L, ∀ sub, fs₀.lookup (projectsDir ++ [lang]) = some sub →
      ∀ rest, fs'.lookup (backupPath projectsDir ++ lang :: rest) =
        sub.lookup rest) := by
  constructor
  · intro slug lvs lang d hmem hld
    obtain ⟨hlang, hsp, hlk⟩ := collect_sound hcol hmem hld
    rw [hlk]
    exact migrate_live_doc hmig hkeys hns hmem (hslugs _ hmem) hld
      (hvs _ hmem)
      (fun e he f hf => hmedia _ hmem e he f hf (lang, d) hld)
  · intro lang hlang sub hsub rest
    exact migrate_live_backup hmig hL hns hosb hlang hsub rest

/-- C3 instantiated: on the clean legacy tree `fsW`, the migrated `ru`
document of `p1` is byte-identical to its legacy source, and the backup
holds the original `en` folder subtree unchanged. -/
theorem claim_C3_witness :
    ((migrate false projectsDir ["en", "ru"]
        ((collectProjects projectsDir ["en", "ru"] fsW).getD []) fsW).getD
        (.dir [])).lookup (projectsDir ++ ["p1", "ru" ++ ".md"]) =
      fsW.lookup (projectsDir ++ ["ru", "p1", "index.md"]) ∧
    ((migrate false projectsDir ["en", "ru"]
        ((collectProjects projectsDir ["en", "ru"] fsW).getD []) fsW).getD
        (.dir [])).lookup (backupPath projectsDir ++ "en" :: ["p2", "index.md"]) =
      fsW.lookup (projectsDir ++ ["en"] ++ ["p2", "index.md"]) := by
  have hcol : collectProjects projectsDir ["en", "ru"] fsW =
      some ((collectProjects projectsDir ["en", "ru"] fsW).getD []) := rfl
  have hmig : migrate false projectsDir ["en", "ru"]
      ((collectProjects projectsDir ["en", "ru"] fsW).getD []) fsW =
      some ((migrate false projectsDir ["en", "ru"]
        ((collectProjects projectsDir ["en", "ru"] fsW).getD []) fsW).getD
        (.dir [])) := rfl
  have h := claim_C3 hcol hmig (by decide) (by decide) (by decide)
    (by decide) (by decide) (by decide) (by decide)
  constructor
  · rw [h.1 "p1" ((listGet ((collectProjects projectsDir ["en", "ru"] fsW).getD [])
      "p1").getD []) "ru"
      { content := "RU1", files := ["diagram.png", "extra.gif"],
        sourcePath := projectsDir ++ ["ru", "p1"] } (by decide) (by decide)]
  · rw [h.2 "en" (by decide)
      (FS.dir [("p1", FS.dir [("index.md", FS.file "EN1"),
          ("diagram.png", FS.file "IMG-EN")]),
        ("p2", FS.dir [("index.md", FS.file "EN2")])])
      (by rfl) ["p2", "index.md"]]
    rfl

/-!
## Infrastructure: freshly created directories and absent entries
-/

namespace FS

theorem mkdirp_nil_lookup : ∀ {p : FsPath} {t' : FS},
    FS.mkdirp (.dir []) p = some t' → t'.lookup p = some (.dir []) := by
  intro p
  induction p with
  | nil =>
    intro t' h
    cases h
    rfl
  | cons n rest ih =>
    intro t' h
    simp only [mkdirp, childGet] at h
    cases hrec : mkdirp (.dir []) rest with
    | none => rw [hrec] at h; simp at h
    | some u =>
      rw [hrec] at h
      simp only [Option.map_some'] at h
      cases h
      simp only [lookup, childSet, childGet, if_pos rfl]
      exact ih hrec

theorem mkdirp_fresh_self : ∀ {t t' : FS} {p : FsPath},
    t.mkdirp p = some t' → t.lookup p = none → t'.lookup p = some (.dir []) := by
  intro t t' p
  induction p generalizing t t' with
  | nil =>
    intro h hn
    cases t
    · simp [mkdirp] at h
    · simp [mkdirp] at h
      simp [lookup] at hn
  | cons n rest ih =>
    intro h hn
    cases t with
    | file c => simp [mkdirp] at h
    | dir es =>
      simp only [mkdirp] at h
      cases hcg : childGet es n with
      | some child =>
        rw [hcg] at h
        simp only at h
        cases hrec : mkdirp child rest with
        | none => rw [hrec] at h; simp at h
        | some u =>
          rw [hrec] at h
          simp only [Option.map_some'] at h
          cases h
          have hn' : child.lookup rest = none := by
            simp only [lookup, hcg] at hn
            exact hn
          simp only [lookup, childGet_childSet_self]
          exact ih hrec hn'
      | none =>
        rw [hcg] at h
        simp only at h
        cases hrec : mkdirp (.dir []) rest with
        | none => rw [hrec] at h; simp at h
        | some u =>
          rw [hrec] at h
          simp only [Option.map_some'] at h
          cases h
          simp only [lookup, childGet_childSet_self]
          exact mkdirp_nil_lookup hrec

theorem applyMkdir_fresh {t t' : FS} {p : FsPath} (h : t.applyMkdir p = some t')
    (hn : t.lookup p = none) : t'.lookup p = some (.dir []) := by
  unfold applyMkdir at h
  rw [hn] at h
  simp only [Option.isSome_none, Bool.false_eq_true, if_false] at h
  exact mkdirp_fresh_self h hn

end FS

/-- The document writes keep the staged item directory present. -/
theorem writes_parent_isSome {root : FsPath} {slug : String} :
    ∀ {lvs : LangVersions} {fs fs' : FS},
      applyOps (lvs.flatMap fun e =>
        [FsOp.write (tempPath root ++ [slug, e.1 ++ ".md"]) e.2.content]) fs = some fs' →
      (fs.lookup (tempPath root ++ [slug])).isSome →
      (fs'.lookup (tempPath root ++ [slug])).isSome := by
  intro lvs
  induction lvs with
  | nil =>
    intro fs fs' h hs
    cases h
    exact hs
  | cons e rest ih =>
    intro fs fs' h hs
    rw [List.flatMap_cons, List.cons_append, List.nil_append, applyOps_cons_bind] at h
    cases hw : applyOp fs (.write (tempPath root ++ [slug, e.1 ++ ".md"]) e.2.content) with
    | none => rw [hw] at h; simp at h
    | some fs1 =>
      rw [hw] at h
      simp only [Option.some_bind] at h
      refine ih h ?_
      have hself : fs1.lookup (tempPath root ++ [slug, e.1 ++ ".md"]) =
          some (.file e.2.content) := FS.writeFile_lookup_self hw
      rw [path_pair] at hself
      exact FS.lookup_isSome_of_append (p := tempPath root ++ [slug])
        (q := [e.1 ++ ".md"]) (by rw [hself]; rfl)

/-- The media loop never creates a staged name absent from its list. -/
theorem mediaOps_keep_none {itemDir : FsPath} {x : String} :
    ∀ {pairs : List (String × FsPath)} {copied : List String} {fs fs' : FS},
      applyOps (mediaCopyOps false itemDir pairs copied) fs = some fs' →
      (∀ e ∈ pairs, e.1 ≠ x) →
      fs.lookup (itemDir ++ [x]) = none →
      (fs.lookup itemDir).isSome →
      fs'.lookup (itemDir ++ [x]) = none := by
  intro pairs
  induction pairs with
  | nil =>
    intro copied fs fs' h _ hn _
    cases h
    exact hn
  | cons e rest ih =>
    intro copied fs fs' h hne hn hs
    obtain ⟨f, src⟩ := e
    by_cases hf : f ∈ copied
    · rw [mediaCopyOps, if_pos hf] at h
      exact ih h (fun e' he' => hne e' (List.mem_cons_of_mem _ he')) hn hs
    · rw [mediaCopyOps, if_neg hf, if_neg Bool.false_ne_true] at h
      rw [List.cons_append, List.cons_append, List.nil_append, applyOps_cons_bind] at h
      rw [show applyOp fs (.mkdir itemDir) = fs.applyMkdir itemDir from rfl,
        FS.applyMkdir_of_isSome hs] at h
      simp only [Option.some_bind] at h
      rw [applyOps_cons_bind] at h
      cases hcp : applyOp fs (.copy src (itemDir ++ [f])) with
      | none => rw [hcp] at h; simp at h
      | some fs2 =>
        rw [hcp] at h
        simp only [Option.some_bind] at h
        have hfx : f ≠ x := hne (f, src) (List.mem_cons_self _ _)
        have hn2 : fs2.lookup (itemDir ++ [x]) = none := by
          have hd : PathsDisj (itemDir ++ [f]) (itemDir ++ [x]) :=
            pathsDisj_sibling (b := itemDir) (u := []) (v := []) hfx
          rw [lookup_applyOp_disj hcp
            (by intro tgt htgt
                simp only [FsOp.touches, List.mem_singleton] at htgt
                subst htgt
                exact hd), hn]
        have hs2 : (fs2.lookup itemDir).isSome := by
          obtain ⟨c, _, hc2⟩ := copyFile_some hcp
          exact FS.lookup_isSome_of_append (p := itemDir) (q := [f])
            (by rw [hc2]; rfl)
        exact ih h (fun e' he' => hne e' (List.mem_cons_of_mem _ he')) hn2 hs2

/-- When the staging area is fresh, the staged item directory contains only
the written documents and copied media: any other name is absent. -/
theorem staging_absent {root : FsPath} {items : Items} {fs₀ fs₁ : FS}
    (h : applyOps (stagingOps false root items) fs₀ = some fs₁)
    (hkeys : (items.map Prod.fst).Nodup)
    (htemp : fs₀.lookup (tempPath root) = none)
    {slug : String} {lvs : LangVersions} (hmem : (slug, lvs) ∈ items)
    {x : String} (hxdoc : ∀ e ∈ lvs, x ≠ e.1 ++ ".md")
    (hxmedia : ∀ e ∈ allMedia lvs, e.1 ≠ x) :
    fs₁.lookup (tempPath root ++ [slug, x]) = none := by
  obtain ⟨pre, post, hsplit⟩ := List.append_of_mem hmem
  subst hsplit
  rw [stagingOps_false, applyOps_cons_bind] at h
  cases hmk : applyOp fs₀ (.mkdir (tempPath root)) with
  | none => rw [hmk] at h; simp at h
  | some fsm =>
    rw [hmk] at h
    simp only [Option.some_bind] at h
    have htm : fsm.lookup (tempPath root) = some (.dir []) :=
      FS.applyMkdir_fresh hmk htemp
    have hslug_none : fsm.lookup (tempPath root ++ [slug]) = none := by
      rw [lookup_append_some htm, lookup_dir_single]
      rfl
    have hx_none : fsm.lookup (tempPath root ++ [slug, x]) = none := by
      rw [path_pair, FS.lookup_append, lookup_append_some htm, lookup_dir_single]
      rfl
    rw [List.flatMap_append, List.flatMap_cons, applyOps_append_bind] at h
    cases hpre : applyOps (pre.flatMap fun e => stageItemOps false root e.1 e.2) fsm with
    | none => rw [hpre] at h; simp at h
    | some fsB =>
      rw [hpre] at h
      simp only [Option.some_bind, applyOps_append_bind] at h
      have hkeys' : slug ∉ pre.map Prod.fst ∧ slug ∉ post.map Prod.fst := by
        have hmap : (pre ++ (slug, lvs) :: post).map Prod.fst =
            pre.map Prod.fst ++ slug :: post.map Prod.fst := by simp
        rw [hmap] at hkeys
        constructor
        · intro hin
          exact (List.disjoint_of_nodup_append hkeys) hin (List.mem_cons_self _ _)
        · exact (List.nodup_cons.mp hkeys.of_append_right).1
      have hpre_ne : ∀ e ∈ pre, e.1 ≠ slug := fun e he hee =>
        hkeys'.1 (hee ▸ List.mem_map_of_mem _ he)
      have hpost_ne : ∀ e ∈ post, e.1 ≠ slug := fun e he hee =>
        hkeys'.2 (hee ▸ List.mem_map_of_mem _ he)
      have hslugB : fsB.lookup (tempPath root ++ [slug]) = none := by
        have := stageOther_keeps hpre hpre_ne ([] : FsPath)
        rw [show tempPath root ++ slug :: [] = tempPath root ++ [slug] from rfl] at this
        rw [this, hslug_none]
      have hxB : fsB.lookup (tempPath root ++ [slug, x]) = none := by
        have := stageOther_keeps hpre hpre_ne [x]
        rw [show tempPath root ++ slug :: [x] = tempPath root ++ [slug, x] from rfl] at this
        rw [this, hx_none]
      cases hitem : applyOps (stageItemOps false root slug lvs) fsB with
      | none => rw [hitem] at h; simp at h
      | some fsI =>
        rw [hitem] at h
        simp only [Option.some_bind] at h
        have hxI : fsI.lookup (tempPath root ++ [slug, x]) = none := by
          rw [stageItemOps_false, applyOps_append_bind] at hitem
          cases hAW : applyOps ([FsOp.mkdir (tempPath root ++ [slug])] ++
              (lvs.flatMap fun e =>
                [FsOp.write (tempPath root ++ [slug, e.1 ++ ".md"]) e.2.content])) fsB with
          | none => rw [hAW] at hitem; simp at hitem
          | some fsAW =>
            rw [hAW] at hitem
            simp only [Option.some_bind] at hitem
            rw [applyOps_append_bind] at hAW
            cases hA : applyOps [FsOp.mkdir (tempPath root ++ [slug])] fsB with
            | none => rw [hA] at hAW; simp at hAW
            | some fsA =>
              rw [hA] at hAW
              simp only [Option.some_bind] at hAW
              have hA' : fsB.applyMkdir (tempPath root ++ [slug]) = some fsA := by
                rw [show applyOps [FsOp.mkdir (tempPath root ++ [slug])] fsB =
                  fsB.applyMkdir (tempPath root ++ [slug]) from by
                    simp [applyOps_cons_bind, applyOps, applyOp]] at hA
                exact hA
              have hdirA : fsA.lookup (tempPath root ++ [slug]) = some (.dir []) :=
                FS.applyMkdir_fresh hA' hslugB
              have hxA : fsA.lookup (tempPath root ++ [slug, x]) = none := by
                rw [path_pair, lookup_append_some hdirA, lookup_dir_single]
                rfl
              have hxW : fsAW.lookup (tempPath root ++ [slug, x]) = none := by
                rw [← hxA]
                refine lookup_applyOps_disj hAW ?_
                intro op hop tgt htgt
                obtain ⟨e, he, hope⟩ := List.mem_flatMap.mp hop
                simp only [List.mem_singleton] at hope
                subst hope
                simp only [FsOp.touches, List.mem_singleton] at htgt
                subst htgt
                rw [path_pair, path_pair]
                exact pathsDisj_sibling (b := tempPath root ++ [slug]) (u := [])
                  (v := []) (fun he' => hxdoc e he he'.symm)
              have hsW : (fsAW.lookup (tempPath root ++ [slug])).isSome :=
                writes_parent_isSome hAW (by rw [hdirA]; rfl)
              rw [show tempPath root ++ [slug, x] =
                (tempPath root ++ [slug]) ++ [x] from path_pair _ _ _]
              refine mediaOps_keep_none hitem ?_ ?_ hsW
              · exact fun e he => hxmedia e he
              · rw [← path_pair]
                exact hxW
        have := stageOther_keeps h hpost_ne [x]
        rw [show tempPath root ++ slug :: [x] = tempPath root ++ [slug, x] from rfl] at this
        rw [this, hxI]

/-- After a successful live migration over a fresh staging area, the
migrated item directory is a directory whose entries are characterized
name-by-name: each collected language document is present with its bytes,
and any name that is neither a document nor a media name of the item is
absent. -/
theorem migrate_live_dir {root : FsPath} {L : List String} {items : Items}
    {fs₀ fs' : FS} (h : migrate false root L items fs₀ = some fs')
    (hkeys : (items.map Prod.fst).Nodup) (hnsL : "_new_structure" ∉ L)
    (htemp : fs₀.lookup (tempPath root) = none)
    {slug : String} {lvs : LangVersions} (hmem : (slug, lvs) ∈ items)
    (hslug : slug ≠ "_new_structure") (hnodup : (lvs.map Prod.fst).Nodup)
    {lang₀ : String} {d₀ : LangData} (hld₀ : (lang₀, d₀) ∈ lvs)
    (hmedia₀ : ∀ e ∈ lvs, ∀ f ∈ e.2.files, f ≠ lang₀ ++ ".md") :
    ∃ es, fs'.lookup (root ++ [slug]) = some (.dir es) ∧
      (∀ lang d, (lang, d) ∈ lvs →
        (∀ e ∈ lvs, ∀ f ∈ e.2.files, f ≠ lang ++ ".md") →
        FS.childGet es (lang ++ ".md") = some (.file d.content)) ∧
      (∀ x, (∀ e ∈ lvs, x ≠ e.1 ++ ".md") → (∀ e ∈ allMedia lvs, e.1 ≠ x) →
        FS.childGet es x = none) := by
  obtain ⟨fs₁, fs₂, slugs, fs₃, h1, h2, h3, h4, h5⟩ := migrate_live_parts h
  have hbkq : ∀ y : FsPath, fs₂.lookup (tempPath root ++ y) =
      fs₁.lookup (tempPath root ++ y) := by
    intro y
    refine backupLangs_keeps h2 ?_
      (by simpa using @backup_path_disj_temp root [] y)
    intro l hl
    exact ⟨temp_path_disj (fun he => hnsL (he ▸ hl)) _, backup_path_disj_temp [l] _⟩
  have hstage₀ := staging_doc h1 hkeys hmem hld₀ hnodup hmedia₀
  have hfs₂doc : fs₂.lookup (tempPath root ++ [slug, lang₀ ++ ".md"]) =
      some (.file d₀.content) := by
    rw [hbkq [slug, lang₀ ++ ".md"], hstage₀]
  rw [path_pair] at hfs₂doc
  obtain ⟨es, hes, hcg⟩ := lookup_parent_dir hfs₂doc
  obtain ⟨e0, es0, hes0⟩ := List.exists_cons_of_ne_nil (childGet_ne_nil hcg)
  rw [hes0] at hes hcg
  have hmemslug : slug ∈ slugs := mem_readdirDirs h3 hes
  have hprom := promoteAll_keeps h4 hmemslug hslug hes
  have hrm : fs'.lookup (root ++ [slug]) = fs₃.lookup (root ++ [slug]) := by
    refine FS.lookup_applyRemove_disj h5 ?_
    have := pathsDisj_sibling (b := root) (u := []) (v := [])
      (x := "_new_structure") (y := slug) (Ne.symm hslug)
    simpa [tempPath] using this
  refine ⟨e0 :: es0, by rw [hrm, hprom], ?_, ?_⟩
  · intro lang d hld hmedia
    have hstage := staging_doc h1 hkeys hmem hld hnodup hmedia
    have hfs₂ : fs₂.lookup (tempPath root ++ [slug, lang ++ ".md"]) =
        some (.file d.content) := by
      rw [hbkq [slug, lang ++ ".md"], hstage]
    rw [path_pair] at hfs₂
    rw [lookup_append_some hes, lookup_dir_single] at hfs₂
    exact hfs₂
  · intro x hxdoc hxmedia
    have habs := staging_absent h1 hkeys htemp hmem hxdoc hxmedia
    have hfs₂ : fs₂.lookup (tempPath root ++ [slug, x]) = none := by
      rw [hbkq [slug, x], habs]
    rw [path_pair] at hfs₂
    rw [lookup_append_some hes, lookup_dir_single] at hfs₂
    exact hfs₂

/-!
## Infrastructure: the translation tables
-/

theorem listGet_nil {β : Type} (m : String) :
    listGet ([] : List (String × β)) m = none := rfl

theorem listGet_cons {β : Type} (k' : String) (v' : β) (rest : List (String × β))
    (m : String) :
    listGet ((k', v') :: rest) m = if k' = m then some v' else listGet rest m := by
  by_cases h : k' = m
  · unfold listGet
    rw [List.find?_cons_of_pos _ (by simp [h]), if_pos h]
    rfl
  · unfold listGet
    rw [List.find?_cons_of_neg _ (by simp [h]), if_neg h]

theorem keys_updOrAppend {β : Type} {l : List (String × β)} {k m : String} {v : β} :
    m ∈ (updOrAppend l k v).map Prod.fst ↔ m = k ∨ m ∈ l.map Prod.fst := by
  induction l with
  | nil => simp [updOrAppend]
  | cons e rest ih =>
    obtain ⟨k', v'⟩ := e
    by_cases hk : k' = k
    · subst hk
      simp [updOrAppend]
    · rw [updOrAppend, if_neg hk]
      simp only [List.map_cons, List.mem_cons, ih]
      tauto

theorem listGet_updOrAppend_self {β : Type} {l : List (String × β)} {k : String}
    {v : β} : listGet (updOrAppend l k v) k = some v := by
  induction l with
  | nil =>
    rw [updOrAppend, listGet_cons, if_pos rfl]
  | cons e rest ih =>
    obtain ⟨k', v'⟩ := e
    by_cases hk : k' = k
    · subst hk
      rw [updOrAppend, if_pos rfl, listGet_cons, if_pos rfl]
    · rw [updOrAppend, if_neg hk, listGet_cons, if_neg hk]
      exact ih

theorem listGet_updOrAppend_ne {β : Type} {l : List (String × β)} {k m : String}
    {v : β} (h : m ≠ k) : listGet (updOrAppend l k v) m = listGet l m := by
  induction l with
  | nil =>
    rw [updOrAppend, listGet_cons, if_neg (Ne.symm h), listGet_nil]
  | cons e rest ih =>
    obtain ⟨k', v'⟩ := e
    by_cases hk : k' = k
    · subst hk
      rw [updOrAppend, if_pos rfl, listGet_cons, listGet_cons,
        if_neg (Ne.symm h), if_neg (Ne.symm h)]
    · rw [updOrAppend, if_neg hk, listGet_cons, listGet_cons]
      by_cases hm : k' = m
      · rw [if_pos hm, if_pos hm]
      · rw [if_neg hm, if_neg hm]
        exact ih

theorem translationsFold_keys_mono {languages : List String}
    {parse : String → Option String} {folderSlug : String} :
    ∀ {es : List (String × FS)} {acc : List (String × String)} {l : String},
      l ∈ acc.map Prod.fst →
      l ∈ (translationsFold languages parse folderSlug es acc).map Prod.fst := by
  intro es
  induction es with
  | nil =>
    intro acc l h
    simpa [translationsFold] using h
  | cons e rest ih =>
    intro acc l h
    obtain ⟨f, sub⟩ := e
    rw [translationsFold]
    split
    · split
      · exact ih (keys_updOrAppend.mpr (Or.inr h))
      · exact ih h
    · exact ih h

theorem translationsFold_keys_sub {languages : List String}
    {parse : String → Option String} {folderSlug : String} :
    ∀ {es : List (String × FS)} {acc : List (String × String)} {l : String},
      l ∈ (translationsFold languages parse folderSlug es acc).map Prod.fst →
      (l ∈ languages ∧ ∃ p ∈ es, strEndsWith p.1 ".md" = true ∧
        replaceFirstMd p.1 = l) ∨ l ∈ acc.map Prod.fst := by
  intro es
  induction es with
  | nil =>
    intro acc l h
    exact Or.inr (by simpa [translationsFold] using h)
  | cons e rest ih =>
    intro acc l h
    obtain ⟨f, sub⟩ := e
    rw [translationsFold] at h
    split at h
    case isTrue hw =>
      split at h
      case isTrue hmem =>
        rcases ih h with hrest | hacc
        · exact Or.inl ⟨hrest.1, hrest.2.imp fun p hp =>
            ⟨List.mem_cons_of_mem _ hp.1, hp.2⟩⟩
        · rcases keys_updOrAppend.mp hacc with heq | hacc'
          · subst heq
            exact Or.inl ⟨hmem, ⟨(f, sub), List.mem_cons_self _ _, hw, rfl⟩⟩
          · exact Or.inr hacc'
      case isFalse =>
        rcases ih h with hrest | hacc
        · exact Or.inl ⟨hrest.1, hrest.2.imp fun p hp =>
            ⟨List.mem_cons_of_mem _ hp.1, hp.2⟩⟩
        · exact Or.inr hacc
    case isFalse =>
      rcases ih h with hrest | hacc
      · exact Or.inl ⟨hrest.1, hrest.2.imp fun p hp =>
          ⟨List.mem_cons_of_mem _ hp.1, hp.2⟩⟩
      · exact Or.inr hacc

theorem translationsFold_keys_mem {languages : List String}
    {parse : String → Option String} {folderSlug : String} :
    ∀ {es : List (String × FS)} {acc : List (String × String)}
      {p : String × FS}, p ∈ es → strEndsWith p.1 ".md" = true →
      replaceFirstMd p.1 ∈ languages →
      replaceFirstMd p.1 ∈
        (translationsFold languages parse folderSlug es acc).map Prod.fst := by
  intro es
  induction es with
  | nil =>
    intro acc p hp
    simp at hp
  | cons e rest ih =>
    intro acc p hp hw hmem
    obtain ⟨f, sub⟩ := e
    rcases List.mem_cons.mp hp with heq | htl
    · subst heq
      rw [translationsFold, if_pos hw, if_pos hmem]
      exact translationsFold_keys_mono (keys_updOrAppend.mpr (Or.inl rfl))
    · rw [translationsFold]
      split
      · split
        · exact ih htl hw hmem
        · exact ih htl hw hmem
      · exact ih htl hw hmem

/-- The translations loop never assigns a key no remaining entry parses
to. -/
theorem translationsFold_skip {languages : List String}
    {parse : String → Option String} {folderSlug : String} {l : String} :
    ∀ {es : List (String × FS)} {acc : List (String × String)},
      (∀ p ∈ es, strEndsWith p.1 ".md" = true → replaceFirstMd p.1 ∈ languages →
        replaceFirstMd p.1 ≠ l) →
      listGet (translationsFold languages parse folderSlug es acc) l =
        listGet acc l := by
  intro es
  induction es with
  | nil =>
    intro acc _
    rfl
  | cons e rest ih =>
    intro acc hne
    obtain ⟨f, sub⟩ := e
    rw [translationsFold]
    split
    case isTrue hw =>
      split
      case isTrue hmem =>
        rw [ih fun p hp => hne p (List.mem_cons_of_mem _ hp)]
        exact listGet_updOrAppend_ne
          (Ne.symm (hne (f, sub) (List.mem_cons_self _ _) hw hmem))
      case isFalse =>
        exact ih fun p hp => hne p (List.mem_cons_of_mem _ hp)
    case isFalse =>
      exact ih fun p hp => hne p (List.mem_cons_of_mem _ hp)

/-- Under name sanity (every `.md` entry that parses to a configured
language is literally `{lang}.md`, language codes round-trip, the entry
names are unique), the translations loop records for language `l` exactly
the value of the entry named `l ++ ".md"`. -/
theorem translationsFold_listGet {languages : List String}
    {parse : String → Option String} {folderSlug : String} {l : String}
    (hl1 : replaceFirstMd (l ++ ".md") = l)
    (hl2 : strEndsWith (l ++ ".md") ".md" = true) (hlmem : l ∈ languages) :
    ∀ {es : List (String × FS)} {acc : List (String × String)},
      (∀ p ∈ es, strEndsWith p.1 ".md" = true → replaceFirstMd p.1 ∈ languages →
        p.1 = replaceFirstMd p.1 ++ ".md") →
      (es.map Prod.fst).Nodup →
      listGet (translationsFold languages parse folderSlug es acc) l =
        (match FS.childGet es (l ++ ".md") with
          | some sub => some (translationEntryValue parse folderSlug sub)
          | none => listGet acc l) := by
  intro es
  induction es with
  | nil =>
    intro acc _ _
    rfl
  | cons e rest ih =>
    intro acc hsane hnd
    obtain ⟨f, sub⟩ := e
    have hnd' : (f :: rest.map Prod.fst).Nodup := by
      rw [List.map_cons] at hnd
      exact hnd
    by_cases hf : f = l ++ ".md"
    · subst hf
      rw [translationsFold, if_pos hl2, if_pos (show replaceFirstMd (l ++ ".md") ∈ languages from by rw [hl1]; exact hlmem)]
      rw [show FS.childGet ((l ++ ".md", sub) :: rest) (l ++ ".md") = some sub from by
        simp [FS.childGet]]
      have hskip : ∀ p ∈ rest, strEndsWith p.1 ".md" = true →
          replaceFirstMd p.1 ∈ languages → replaceFirstMd p.1 ≠ l := by
        intro p hp hw hmem he
        have hpname : p.1 = l ++ ".md" := by
          rw [hsane p (List.mem_cons_of_mem _ hp) hw hmem, he]
        exact (List.nodup_cons.mp hnd').1 (hpname ▸ List.mem_map_of_mem _ hp)
      rw [translationsFold_skip hskip, hl1, listGet_updOrAppend_self]
    · rw [show FS.childGet ((f, sub) :: rest) (l ++ ".md") =
        FS.childGet rest (l ++ ".md") from by simp [FS.childGet, hf]]
      rw [translationsFold]
      split
      · rename_i hw
        split
        · rename_i hmem
          have hne : replaceFirstMd f ≠ l := by
            intro he
            have hthis := hsane (f, sub) (List.mem_cons_self _ _) hw hmem
            simp only at hthis
            rw [he] at hthis
            exact hf hthis
          rw [ih (fun p hp => hsane p (List.mem_cons_of_mem _ hp))
            (List.nodup_cons.mp hnd').2]
          cases hcg : FS.childGet rest (l ++ ".md") with
          | some sub' => rfl
          | none => exact listGet_updOrAppend_ne (Ne.symm hne)
        · exact ih (fun p hp => hsane p (List.mem_cons_of_mem _ hp))
            (List.nodup_cons.mp hnd').2
      · exact ih (fun p hp => hsane p (List.mem_cons_of_mem _ hp))
          (List.nodup_cons.mp hnd').2

theorem translationsIn_none {itemRoot : FsPath} {languages : List String}
    {parse : String → Option String} {fs : FS} {folderSlug : String}
    (h : fs.lookup (itemRoot ++ [folderSlug]) = none) :
    translationsIn itemRoot languages parse fs folderSlug = some [] := by
  unfold translationsIn
  split
  · rfl
  · rw [h]

theorem translationsIn_keys_sub {itemRoot : FsPath} {languages : List String}
    {parse : String → Option String} {fs : FS} {folderSlug : String}
    {t : List (String × String)}
    (h : translationsIn itemRoot languages parse fs folderSlug = some t) :
    ∀ l ∈ t.map Prod.fst, l ∈ languages := by
  intro l hl
  unfold translationsIn at h
  split at h
  · cases h
    simp at hl
  · cases hes : fs.lookup (itemRoot ++ [folderSlug]) with
    | none =>
      rw [hes] at h
      cases h
      simp at hl
    | some u =>
      rw [hes] at h
      cases u with
      | file c => simp at h
      | dir es =>
        simp only at h
        injection h with h
        subst h
        rcases translationsFold_keys_sub hl with hgood | hacc
        · exact hgood.1
        · simp at hacc

theorem translationsIn_dir_listGet {itemRoot : FsPath} {languages : List String}
    {parse : String → Option String} {fs : FS} {folderSlug : String}
    {es : List (String × FS)} {t : List (String × String)} {l : String}
    (hes : fs.lookup (itemRoot ++ [folderSlug]) = some (.dir es))
    (ht : translationsIn itemRoot languages parse fs folderSlug = some t)
    (hnd : (es.map Prod.fst).Nodup)
    (hsane : ∀ p ∈ es, strEndsWith p.1 ".md" = true →
      replaceFirstMd p.1 ∈ languages → p.1 = replaceFirstMd p.1 ++ ".md")
    (hl : l ∈ languages) (hl1 : replaceFirstMd (l ++ ".md") = l)
    (hl2 : strEndsWith (l ++ ".md") ".md" = true) :
    listGet t l =
      (match FS.childGet es (l ++ ".md") with
        | some sub => some (translationEntryValue parse folderSlug sub)
        | none => none) := by
  unfold translationsIn at ht
  split at ht
  case isTrue hL =>
    rw [hL] at hl
    simp at hl
  case isFalse =>
    rw [hes] at ht
    simp only at ht
    injection ht with ht
    subst ht
    rw [translationsFold_listGet hl1 hl2 hl hsane hnd]
    cases FS.childGet es (l ++ ".md") with
    | some sub => rfl
    | none => rfl

/-- C10: for every folderSlug, the key set of the translation table
returned by `getPostTranslations` or `getProjectTranslations` is a subset
of the configured language list — an `.md` entry whose stripped basename
is not a configured language is silently ignored and never becomes a
key. -/
theorem claim_C10 {languages : List String} {parse : String → Option String}
    {fs : FS} {folderSlug : String} {tp tj : List (String × String)}
    (hp : getPostTranslations languages parse fs folderSlug = some tp)
    (hj : getProjectTranslations languages parse fs folderSlug = some tj) :
    (∀ l ∈ tp.map Prod.fst, l ∈ languages) ∧
      (∀ l ∈ tj.map Prod.fst, l ∈ languages) :=
  ⟨translationsIn_keys_sub hp, translationsIn_keys_sub hj⟩

/-- C10 instantiated on the concrete current-layout tree `fsNew`: the
stray `draft.md` never becomes a key. -/
theorem claim_C10_witness :
    (∀ l ∈ ((getPostTranslations ["en", "ru"] parse0 fsNew
      "setup-ssh").getD []).map Prod.fst, l ∈ ["en", "ru"]) ∧
    ¬ ("draft" ∈ ((getPostTranslations ["en", "ru"] parse0 fsNew
      "setup-ssh").getD []).map Prod.fst) := by
  have hp : getPostTranslations ["en", "ru"] parse0 fsNew "setup-ssh" =
      some ((getPostTranslations ["en", "ru"] parse0 fsNew "setup-ssh").getD []) := rfl
  have hj : getProjectTranslations ["en", "ru"] parse0 fsNew "setup-ssh" =
      some ((getProjectTranslations ["en", "ru"] parse0 fsNew "setup-ssh").getD []) := rfl
  refine ⟨(claim_C10 hp hj).1, ?_⟩
  intro hmem
  have := (claim_C10 hp hj).1 "draft" hmem
  simp at this

/-- C6: the translation resolvers return an empty map when the item
directory does not exist (not an error); when it exists, then for each
configured language `l` (whose code round-trips through the name parsing,
with unique, sanely named entries) the returned binding for `l` is
governed by the entry `{l}.md`: present exactly when that entry exists,
with the front-matter slug override of the document when it declares one
and the folder slug otherwise. -/
theorem claim_C6 {languages : List String} {parse : String → Option String}
    {fs : FS} {folderSlug : String} :
    (fs.lookup (postsDir ++ [folderSlug]) = none →
      getPostTranslations languages parse fs folderSlug = some []) ∧
    (fs.lookup (projectsDir ++ [folderSlug]) = none →
      getProjectTranslations languages parse fs folderSlug = some []) ∧
    (∀ es t l, fs.lookup (postsDir ++ [folderSlug]) = some (.dir es) →
      getPostTranslations languages parse fs folderSlug = some t →
      (es.map Prod.fst).Nodup →
      (∀ p ∈ es, strEndsWith p.1 ".md" = true →
        replaceFirstMd p.1 ∈ languages → p.1 = replaceFirstMd p.1 ++ ".md") →
      l ∈ languages → replaceFirstMd (l ++ ".md") = l →
      strEndsWith (l ++ ".md") ".md" = true →
      listGet t l =
        (match FS.childGet es (l ++ ".md") with
          | some sub => some (translationEntryValue parse folderSlug sub)
          | none => none) ∧
      ((listGet t l).isSome ↔
        (fs.lookup (postsDir ++ [folderSlug, l ++ ".md"])).isSome)) ∧
    (∀ es t l, fs.lookup (projectsDir ++ [folderSlug]) = some (.dir es) →
      getProjectTranslations languages parse fs folderSlug = some t →
      (es.map Prod.fst).Nodup →
      (∀ p ∈ es, strEndsWith p.1 ".md" = true →
        replaceFirstMd p.1 ∈ languages → p.1 = replaceFirstMd p.1 ++ ".md") →
      l ∈ languages → replaceFirstMd (l ++ ".md") = l →
      strEndsWith (l ++ ".md") ".md" = true →
      listGet t l =
        (match FS.childGet es (l ++ ".md") with
          | some sub => some (translationEntryValue parse folderSlug sub)
          | none => none) ∧
      ((listGet t l).isSome ↔
        (fs.lookup (projectsDir ++ [folderSlug, l ++ ".md"])).isSome)) := by
  refine ⟨translationsIn_none, translationsIn_none, ?_, ?_⟩
  · intro es t l hes ht hnd hsane hl hl1 hl2
    have hget := translationsIn_dir_listGet hes ht hnd hsane hl hl1 hl2
    refine ⟨hget, ?_⟩
    have hfile : fs.lookup (postsDir ++ [folderSlug, l ++ ".md"]) =
        FS.childGet es (l ++ ".md") := by
      rw [path_pair, lookup_append_some hes, lookup_dir_single]
    rw [hget, hfile]
    cases FS.childGet es (l ++ ".md") with
    | some sub => simp
    | none => simp
  · intro es t l hes ht hnd hsane hl hl1 hl2
    have hget := translationsIn_dir_listGet hes ht hnd hsane hl hl1 hl2
    refine ⟨hget, ?_⟩
    have hfile : fs.lookup (projectsDir ++ [folderSlug, l ++ ".md"]) =
        FS.childGet es (l ++ ".md") := by
      rw [path_pair, lookup_append_some hes, lookup_dir_single]
    rw [hget, hfile]
    cases FS.childGet es (l ++ ".md") with
    | some sub => simp
    | none => simp

/-- C6 instantiated on `fsNew`: the missing item yields an empty map, the
`ru` binding carries the front-matter override, and a language without a
document (`de` configured) yields no binding. -/
theorem claim_C6_witness :
    getPostTranslations ["en", "ru"] parse0 fsNew "missing" = some [] ∧
    listGet ((getPostTranslations ["en", "ru"] parse0 fsNew
      "setup-ssh").getD []) "ru" = some "custom-slug" := by
  constructor
  · exact (@claim_C6 ["en", "ru"] parse0 fsNew "missing").1 rfl
  · have ht : getPostTranslations ["en", "ru"] parse0 fsNew "setup-ssh" =
        some ((getPostTranslations ["en", "ru"] parse0 fsNew "setup-ssh").getD []) := rfl
    have h := ((@claim_C6 ["en", "ru"] parse0 fsNew "setup-ssh").2.2.1
      [("en.md", FS.file "x"), ("ru.md", FS.file "OVR"),
        ("draft.md", FS.file "d"), ("img.png", FS.file "i")]
      ((getPostTranslations ["en", "ru"] parse0 fsNew "setup-ssh").getD [])
      "ru" rfl ht (by decide) (by decide) (by decide) (by decide) (by decide)).1
    rw [h]
    rfl

/-- C4 counterexample: the claim as stated is false.  On the legacy tree
`fsP4` the slug `s` is collected with documents in the language set
`L = {en, xx}`, migration succeeds, yet resolving `s` against the
configured language list `["en", "ru"]` yields a table whose key set is
`{en}`: the detected language `xx` is dropped because the resolver only
iterates the configured languages. -/
theorem claim_C4_counterexample :
    detectLanguages postsDir fsP4 = some ["en", "xx"] ∧
    ((collectProjects postsDir ["en", "xx"] fsP4).getD []).map
      (fun e => (e.1, e.2.map Prod.fst)) = [("s", ["en", "xx"])] ∧
    ((collectProjects postsDir ["en", "xx"] fsP4).bind fun items =>
        (migrate false postsDir ["en", "xx"] items fsP4).bind fun fs' =>
          getPostTranslations ["en", "ru"] parse0 fs' "s") =
      some [("en", "s")] ∧
    "xx" ∈ (["en", "xx"] : List String) ∧
    "xx" ∉ ([("en", "s")].map Prod.fst) :=
  ⟨rfl, rfl, rfl, by decide, by decide⟩

/-- C4 (amended): for every slug collected with documents in a language
set `L_item` (with sanely named, duplicate-free entries and no media file
masquerading as a document of a configured language), running the live
migration and then resolving the slug yields a translation table whose key
set equals the intersection of `L_item` with the configured language
list — detected languages outside the configured list are dropped. -/
theorem claim_C4 {L languages : List String} {parse : String → Option String}
    {items : Items} {fs₀ fs' : FS}
    (hcol : collectProjects postsDir L fs₀ = some items)
    (hmig : migrate false postsDir L items fs₀ = some fs')
    (hkeys : (items.map Prod.fst).Nodup)
    (hnsL : "_new_structure" ∉ L)
    (htemp : fs₀.lookup (tempPath postsDir) = none)
    {slug : String} {lvs : LangVersions} (hmem : (slug, lvs) ∈ items)
    (hslug : slug ≠ "_new_structure")
    (hnodup : (lvs.map Prod.fst).Nodup)
    {lang₀ : String} {d₀ : LangData} (hld₀ : (lang₀, d₀) ∈ lvs)
    (hmedia : ∀ e ∈ lvs, ∀ f ∈ e.2.files, ∀ v' ∈ lvs, f ≠ v'.1 ++ ".md")
    (hmediaL : ∀ e ∈ lvs, ∀ f ∈ e.2.files, strEndsWith f ".md" = true →
      replaceFirstMd f ∉ languages)
    (hsaneDocs : ∀ e ∈ lvs, replaceFirstMd (e.1 ++ ".md") = e.1)
    (hsaneL : ∀ l ∈ languages, replaceFirstMd (l ++ ".md") = l ∧
      strEndsWith (l ++ ".md") ".md" = true)
    {t : List (String × String)}
    (ht : getPostTranslations languages parse fs' slug = some t) :
    ∀ l, l ∈ t.map Prod.fst ↔ l ∈ lvs.map Prod.fst ∧ l ∈ languages := by
  intro l
  have hmedia₀ : ∀ e ∈ lvs, ∀ f ∈ e.2.files, f ≠ lang₀ ++ ".md" :=
    fun e he f hf => hmedia e he f hf _ hld₀
  obtain ⟨es, hes, hdoc, habs⟩ :=
    migrate_live_dir hmig hkeys hnsL htemp hmem hslug hnodup hld₀ hmedia₀
  unfold getPostTranslations translationsIn at ht
  by_cases hLe : languages = []
  · rw [if_pos hLe] at ht
    injection ht with ht
    subst ht
    subst hLe
    simp
  · rw [if_neg hLe] at ht
    have hsp : sourceDir ++ ["posts"] = postsDir := rfl
    rw [hsp, hes] at ht
    simp only at ht
    injection ht with ht
    subst ht
    constructor
    · intro hl
      rcases translationsFold_keys_sub hl with ⟨hlang, p, hp, hw, hrep⟩ | hacc
      · obtain ⟨pn, pv⟩ := p
        refine ⟨?_, hlang⟩
        by_cases hdocname : ∀ e ∈ lvs, pn ≠ e.1 ++ ".md"
        · exfalso
          by_cases hmedname : ∀ e ∈ allMedia lvs, e.1 ≠ pn
          · have hnone := habs pn hdocname hmedname
            have hsome : (FS.childGet es pn).isSome = true :=
              FS.childGet_isSome_iff.mpr ⟨pv, hp⟩
            rw [hnone] at hsome
            simp at hsome
          · push_neg at hmedname
            obtain ⟨m, hm, hmn⟩ := hmedname
            obtain ⟨e, he, hfile, _⟩ := mem_allMedia hm
            have := hmediaL e he m.1 hfile (by rw [hmn]; exact hw)
            rw [hmn, hrep] at this
            exact this hlang
        · push_neg at hdocname
          obtain ⟨e, he, hpe⟩ := hdocname
          have hle : l = e.1 := by
            rw [← hrep, hpe, hsaneDocs e he]
          rw [hle]
          exact List.mem_map_of_mem _ he
      · simp at hacc
    · rintro ⟨hlk, hlang⟩
      obtain ⟨e, he, he1⟩ := List.mem_map.mp hlk
      obtain ⟨ln, d⟩ := e
      simp only at he1
      subst he1
      have hm : ∀ e' ∈ lvs, ∀ f ∈ e'.2.files, f ≠ ln ++ ".md" :=
        fun e' h' f hf => hmedia e' h' f hf (ln, d) he
      have hcg := hdoc ln d he hm
      have hpmem := FS.childGet_some_mem hcg
      have hk : replaceFirstMd (ln ++ ".md") ∈
          (translationsFold languages parse slug es []).map Prod.fst :=
        translationsFold_keys_mem hpmem (hsaneL ln hlang).2
          (by rw [(hsaneL ln hlang).1]; exact hlang)
      rw [(hsaneL ln hlang).1] at hk
      exact hk

/-- C4 instantiated on the clean legacy tree `fsP5`: after migrating with
detected languages `en`, `ru` and resolving `s` against the configured
list `["en", "ru"]`, the key `ru` is present exactly because `s` has a
`ru` document and `ru` is configured. -/
theorem claim_C4_witness :
    "ru" ∈ (((collectProjects postsDir ["en", "ru"] fsP5).bind fun items =>
        (migrate false postsDir ["en", "ru"] items fsP5).bind fun fs' =>
          getPostTranslations ["en", "ru"] parse0 fs' "s").getD []).map
        Prod.fst ↔
      "ru" ∈ ((listGet ((collectProjects postsDir ["en", "ru"] fsP5).getD [])
          "s").getD []).map Prod.fst ∧
      "ru" ∈ (["en", "ru"] : List String) := by
  have hcol : collectProjects postsDir ["en", "ru"] fsP5 =
      some ((collectProjects postsDir ["en", "ru"] fsP5).getD []) := rfl
  have hmig : migrate false postsDir ["en", "ru"]
      ((collectProjects postsDir ["en", "ru"] fsP5).getD []) fsP5 =
      some ((migrate false postsDir ["en", "ru"]
        ((collectProjects postsDir ["en", "ru"] fsP5).getD []) fsP5).getD
        (.dir [])) := rfl
  have ht : getPostTranslations ["en", "ru"] parse0
      ((migrate false postsDir ["en", "ru"]
        ((collectProjects postsDir ["en", "ru"] fsP5).getD []) fsP5).getD
        (.dir [])) "s" =
      some (((collectProjects postsDir ["en", "ru"] fsP5).bind fun items =>
        (migrate false postsDir ["en", "ru"] items fsP5).bind fun fs' =>
          getPostTranslations ["en", "ru"] parse0 fs' "s").getD []) := rfl
  exact @claim_C4 ["en", "ru"] ["en", "ru"] parse0
    ((collectProjects postsDir ["en", "ru"] fsP5).getD []) fsP5
    ((migrate false postsDir ["en", "ru"]
      ((collectProjects postsDir ["en", "ru"] fsP5).getD []) fsP5).getD (.dir []))
    hcol hmig (by decide) (by decide) (by rfl) "s"
    ((listGet ((collectProjects postsDir ["en", "ru"] fsP5).getD []) "s").getD [])
    (by decide) (by decide) (by decide) "en"
    ⟨"A", ["pic.png"], postsDir ++ ["en", "s"]⟩
    (by decide) (by decide) (by decide) (by decide) (by decide)
    (((collectProjects postsDir ["en", "ru"] fsP5).bind fun items =>
        (migrate false postsDir ["en", "ru"] items fsP5).bind fun fs' =>
          getPostTranslations ["en", "ru"] parse0 fs' "s").getD [])
    ht "ru"

/-- C7: in every language switcher built for a post or a project, the
rendered markup maps each available language through `switcherEntry`,
where the default (first configured) language's URL carries no language
path prefix and every other language's URL is prefixed with `/{lang}`;
each non-current available language renders as a link whose path uses
that language's own public slug from the translation table, and the
current language renders as plain, non-link text. -/
theorem claim_C7 {languages : List String} {parse : String → Option String}
    {fs : FS} {c slug : String} {tp tj : List (String × String)}
    (hpost : getPostTranslations languages parse fs slug = some tp)
    (hproj : getProjectTranslations languages parse fs slug = some tj)
    (hlen : 1 < languages.length) (havp : 1 < tp.length) (havj : 1 < tj.length) :
    (generateLanguageSwitcher languages parse fs c slug "post" none =
      some (switcherHtml (languages.headD "") c slug tp "posts"
        (tp.map Prod.fst))) ∧
    (generateLanguageSwitcher languages parse fs c slug "project" none =
      some (switcherHtml (languages.headD "") c slug tj "projects"
        (tj.map Prod.fst))) ∧
    (∀ tr : List (String × String), ∀ ps lang s : String,
      lang ≠ c → listGet tr lang = some s → s ≠ "" → ps ≠ "" →
      switcherEntry (languages.headD "") c slug tr ps lang =
        .link ((if lang = languages.headD "" then "" else "/" ++ lang) ++
            "/" ++ ps ++ "/" ++ s ++ "/")
          (langDisplayName lang)) ∧
    (∀ tr : List (String × String), ∀ ps : String,
      switcherEntry (languages.headD "") c slug tr ps c =
        .current (langDisplayName c)) := by
  have hnle : ¬ languages.length ≤ 1 := Nat.not_le.mpr hlen
  refine ⟨?_, ?_, ?_, ?_⟩
  · unfold generateLanguageSwitcher
    rw [if_neg hnle]
    dsimp only
    rw [hpost, if_pos rfl]
    simp only [Option.map_some', Option.bind_eq_bind, Option.some_bind]
    rw [List.length_map, if_neg (Nat.not_le.mpr havp)]
    rfl
  · unfold generateLanguageSwitcher
    rw [if_neg hnle]
    dsimp only
    have hne : ("project" : String) ≠ "post" := by decide
    rw [hproj, if_neg hne, if_pos rfl]
    simp only [Option.map_some', Option.bind_eq_bind, Option.some_bind]
    rw [List.length_map, if_neg (Nat.not_le.mpr havj)]
    rfl
  · intro tr ps lang s hlc hget hs hps
    unfold switcherEntry
    rw [if_neg hlc]
    rw [hget]
    simp only [if_neg hs, if_neg hps]
  · intro tr ps
    unfold switcherEntry
    rw [if_pos rfl]

/-- C7 instantiated on `fsC7` with current language `ru`: the default
language `en` gets an unprefixed link using its own slug, and the current
language renders as plain text. -/
theorem claim_C7_witness :
    generateLanguageSwitcher ["en", "ru"] parse0 fsC7 "ru" "setup-ssh" "post" none =
      some (switcherHtml "en" "ru" "setup-ssh"
        ((getPostTranslations ["en", "ru"] parse0 fsC7 "setup-ssh").getD [])
        "posts"
        (((getPostTranslations ["en", "ru"] parse0 fsC7 "setup-ssh").getD []).map
          Prod.fst)) ∧
    generateLanguageSwitcher ["en", "ru"] parse0 fsC7 "ru" "setup-ssh" "project" none =
      some (switcherHtml "en" "ru" "setup-ssh"
        ((getProjectTranslations ["en", "ru"] parse0 fsC7 "setup-ssh").getD [])
        "projects"
        (((getProjectTranslations ["en", "ru"] parse0 fsC7 "setup-ssh").getD []).map
          Prod.fst)) ∧
    switcherEntry "en" "ru" "setup-ssh"
        ((getPostTranslations ["en", "ru"] parse0 fsC7 "setup-ssh").getD [])
        "posts" "en" =
      .link "/posts/setup-ssh/" "English" ∧
    switcherEntry "en" "ru" "setup-ssh"
        ((getPostTranslations ["en", "ru"] parse0 fsC7 "setup-ssh").getD [])
        "posts" "ru" =
      .current "Русский" := by
  have hpost : getPostTranslations ["en", "ru"] parse0 fsC7 "setup-ssh" =
      some ((getPostTranslations ["en", "ru"] parse0 fsC7 "setup-ssh").getD []) := rfl
  have hproj : getProjectTranslations ["en", "ru"] parse0 fsC7 "setup-ssh" =
      some ((getProjectTranslations ["en", "ru"] parse0 fsC7 "setup-ssh").getD []) := rfl
  have h := claim_C7 (c := "ru") hpost hproj (by decide) (by decide) (by decide)
  refine ⟨h.1, h.2.1, ?_, ?_⟩
  · exact (h.2.2.1
      ((getPostTranslations ["en", "ru"] parse0 fsC7 "setup-ssh").getD [])
      "posts" "en" "setup-ssh" (by decide) rfl (by decide) (by decide)).trans
      (by decide)
  · exact (h.2.2.2
      ((getPostTranslations ["en", "ru"] parse0 fsC7 "setup-ssh").getD [])
      "posts").trans (by decide)

/-- C9: for every post or project item and every current language, the
switcher is the empty string whenever the resolved translation table has
fewer than two entries, no matter how many languages are configured. -/
theorem claim_C9 {languages : List String} {parse : String → Option String}
    {fs : FS} {c slug : String} {folderSlug : Option String}
    {tp tj : List (String × String)}
    (htp : getPostTranslations languages parse fs
      (lookupSlugOf folderSlug slug) = some tp)
    (htj : getProjectTranslations languages parse fs
      (lookupSlugOf folderSlug slug) = some tj)
    (hp : tp.length ≤ 1) (hj : tj.length ≤ 1) :
    generateLanguageSwitcher languages parse fs c slug "post" folderSlug =
      some "" ∧
    generateLanguageSwitcher languages parse fs c slug "project" folderSlug =
      some "" := by
  constructor
  · by_cases hle : languages.length ≤ 1
    · unfold generateLanguageSwitcher
      rw [if_pos hle]
    · unfold generateLanguageSwitcher
      rw [if_neg hle]
      cases folderSlug with
      | none =>
        dsimp only
        simp only [lookupSlugOf] at htp
        rw [htp, if_pos rfl]
        simp only [Option.map_some', Option.bind_eq_bind, Option.some_bind]
        rw [List.length_map, if_pos hp]
      | some s =>
        dsimp only
        simp only [lookupSlugOf] at htp
        rw [htp, if_pos rfl]
        simp only [Option.map_some', Option.bind_eq_bind, Option.some_bind]
        rw [List.length_map, if_pos hp]
  · by_cases hle : languages.length ≤ 1
    · unfold generateLanguageSwitcher
      rw [if_pos hle]
    · unfold generateLanguageSwitcher
      rw [if_neg hle]
      have hne : ("project" : String) ≠ "post" := by decide
      cases folderSlug with
      | none =>
        dsimp only
        simp only [lookupSlugOf] at htj
        rw [htj, if_neg hne, if_pos rfl]
        simp only [Option.map_some', Option.bind_eq_bind, Option.some_bind]
        rw [List.length_map, if_pos hj]
      | some s =>
        dsimp only
        simp only [lookupSlugOf] at htj
        rw [htj, if_neg hne, if_pos rfl]
        simp only [Option.map_some', Option.bind_eq_bind, Option.some_bind]
        rw [List.length_map, if_pos hj]

/-- C9 instantiated: with two configured languages, an item with no
translations at all yields an empty switcher for both content kinds. -/
theorem claim_C9_witness :
    generateLanguageSwitcher ["en", "ru"] parse0 fsNew "en" "missing" "post"
      none = some "" ∧
    generateLanguageSwitcher ["en", "ru"] parse0 fsNew "en" "missing" "project"
      none = some "" :=
  @claim_C9 ["en", "ru"] parse0 fsNew "en" "missing" none [] []
    rfl rfl (by decide) (by decide)

/-- C8: layout detection fails (the script exits) when the content root is
absent; when the root exists but no subdirectory qualifies as a legacy
language folder, it returns the empty set rather than an error, and the
whole run is then a no-op returning the filesystem unchanged. -/
theorem claim_C8 {root : FsPath} {fs : FS} :
    (fs.lookup root = none → detectLanguages root fs = none) ∧
    (∀ es, fs.lookup root = some (.dir es) →
      (∀ e ∈ es, ∀ sub, e.2 = FS.dir sub → hasIndexSubdir sub = false) →
      detectLanguages root fs = some []) ∧
    (∀ d, detectLanguages root fs = some [] → mainRun d root fs = some fs) := by
  refine ⟨?_, ?_, ?_⟩
  · intro h
    unfold detectLanguages
    rw [h]
  · intro es hes hno
    unfold detectLanguages
    rw [hes]
    dsimp only
    refine congrArg some ?_
    rw [List.map_eq_nil_iff]
    rw [List.filter_eq_nil_iff]
    intro a ha
    obtain ⟨n, t⟩ := a
    cases t with
    | file c2 => simp
    | dir sub =>
      simp only [Bool.not_eq_true]
      exact hno (n, .dir sub) ha sub rfl
  · intro d hdet
    unfold mainRun
    rw [hdet]
    simp only [Option.bind_eq_bind, Option.some_bind]
    rfl

/-- C8 instantiated: a missing projects root is detected as an error; a
root with no qualifying language folder detects the empty set, and the
full run leaves the tree untouched. -/
theorem claim_C8_witness :
    detectLanguages projectsDir fsNoRoot = none ∧
    detectLanguages projectsDir fsNoLegacy = some [] ∧
    mainRun false projectsDir fsNoLegacy = some fsNoLegacy := by
  refine ⟨(@claim_C8 projectsDir fsNoRoot).1 rfl, ?_, ?_⟩
  · refine (@claim_C8 projectsDir fsNoLegacy).2.1
      [("en", .dir []), ("readme.txt", .file "r")] rfl ?_
    intro e he sub hsub
    rcases List.mem_cons.mp he with rfl | h
    · injection hsub with h2
      rw [← h2]
      rfl
    · rcases List.mem_cons.mp h with rfl | h2
      · exact absurd hsub (by simp)
      · simp at h2
  · exact (@claim_C8 projectsDir fsNoLegacy).2.2 false rfl
